import Mathlib

/-!
# Verification of the GridSearch repository (Code_Python)

Shallow embedding of `GridSearch.py`, `Stack.py`, `Queue.py`, `PriorityQueue.py`
and `BinaryHeap.py` into Lean 4, together with proofs and refutations of the
specification claims.

Modelling conventions:
* Python `list` becomes Lean `List`; Python indexing (including negative-index
  wrap-around) is modelled by `pyIdx` / `pyGet` / `pySet`; an out-of-range index
  becomes `Option.none` and, where Python raises, an `Except.error` carrying the
  Python exception text.
* `raise SystemExit(msg)` is modelled as `Except.error msg`.
* Grid cells are `Int × Int` pairs (Python tuples of ints).
* The probabilistic branch of `order_dir` (`np.random.choice`) is not modelled;
  the embedding covers the deterministic `prob=None` branch, which returns the
  identity order over the offsets.  No claim depends on the random permutation.
* Python `while` loops become structural recursion on an explicit fuel; each
  search entry point supplies a fuel value proven large enough (the timeout
  outcome is proven unreachable), so the fueled functions compute by `decide`.
-/

set_option maxHeartbeats 1000000

namespace GS

instance {ε α : Type} [DecidableEq ε] [DecidableEq α] : DecidableEq (Except ε α) :=
  fun x y =>
    match x, y with
    | .ok a, .ok b =>
      if h : a = b then isTrue (by rw [h]) else isFalse (fun hh => h (Except.ok.inj hh))
    | .error a, .error b =>
      if h : a = b then isTrue (by rw [h]) else isFalse (fun hh => h (Except.error.inj hh))
    | .ok _, .error _ => isFalse (fun hh => Except.noConfusion hh)
    | .error _, .ok _ => isFalse (fun hh => Except.noConfusion hh)

/-- A grid cell, a Python `(row, col)` tuple of ints. -/
abbrev Cell : Type := Int × Int

/-! ## Python list indexing -/

/-- Resolve a Python list index `i` against a list of length `len`:
non-negative indices are used directly, negative indices wrap from the back,
anything out of range is `none` (Python raises `IndexError`). -/
def pyIdx (len : Nat) (i : Int) : Option Nat :=
  if 0 ≤ i then
    if i.toNat < len then some i.toNat else none
  else
    if 0 ≤ i + len then some (i + (len : Int)).toNat else none

/-- Python `l[i]` for reading. -/
def pyGet {α : Type} (l : List α) (i : Int) : Option α :=
  (pyIdx l.length i).bind (fun n => l[n]?)

/-- Python `l[i] = x`. -/
def pySet {α : Type} (l : List α) (i : Int) (x : α) : Option (List α) :=
  (pyIdx l.length i).map (fun n => l.set n x)

/-- Python `layout[row][col]` for reading a character of the grid layout. -/
def pyGet2 (layout : List (List Char)) (row col : Int) : Option Char :=
  (pyGet layout row).bind (fun lrow => pyGet lrow col)

/-- Python `layout[row][col] = ch`. -/
def setCell (layout : List (List Char)) (row col : Int) (ch : Char) :
    Option (List (List Char)) :=
  (pyIdx layout.length row).bind (fun r =>
    (layout[r]?).bind (fun lrow =>
      (pySet lrow col ch).map (fun lrow2 => layout.set r lrow2)))

/-! ## The `GridSearch` object (file `GridSearch.py`) -/

/-- The attributes of a `GridSearch` object.  The `prob` attribute is omitted:
it is only read by the unmodelled random branch of `order_dir`. -/
structure Grid where
  layout : List (List Char)
  bound : List (List Int)
  start : Option Cell
  goal : Option Cell
  offset : List (Int × Int)
deriving DecidableEq

/-- `[i for i, x in enumerate(row) if x == "*"]`: the boundary positions of one
layout row (`GridSearch.__init__`). -/
def starsOf (row : List Char) : List Int :=
  (row.enum.filter (fun p => p.2 = '*')).map (fun p => (p.1 : Int))

/-- The boundary-building loop of `GridSearch.__init__`: for each row collect
the `'*'` positions and raise as soon as a row has fewer than two of them. -/
def buildBound : List (List Char) → Except String (List (List Int))
  | [] => .ok []
  | row :: rest =>
    let b := starsOf row
    if b.length ≤ 1 then .error "The grid bounds are not consistent."
    else
      match buildBound rest with
      | .error e => .error e
      | .ok bs => .ok (b :: bs)

/-- `GridSearch.__init__` after the file has been read into a list of rows:
build `self.bound`, initialise `start`, `goal`, `offset` to none/empty. -/
def load (rows : List (List Char)) : Except String Grid :=
  match buildBound rows with
  | .error e => .error e
  | .ok b => .ok { layout := rows, bound := b, start := none, goal := none, offset := [] }

/-- The `column` list built inside `GridSearch.is_valid`: the indices of the
rows whose boundary list contains `col`. -/
def columnOf (g : Grid) (col : Int) : List Int :=
  (g.bound.enum.filter (fun p => col ∈ p.2)).map (fun p => (p.1 : Int))

/-- `GridSearch.is_valid`.  Errors model the Python exceptions: the
`SystemExit` for inconsistent column bounds, and the (unreachable on loaded
grids) `IndexError` / `ValueError` of indexing and of `max`/`min` on an empty
list. -/
def is_valid (g : Grid) (row col : Int) : Except String Bool :=
  let max_rows : Int := g.bound.length
  if row ≥ max_rows ∨ row ≤ 0 then .ok false
  else
    match pyGet g.bound row with
    | none => .error "IndexError: list index out of range"
    | some k =>
      match k.max?, k.min? with
      | some mx, some mn =>
        if col > mx ∨ col < mn then .ok false
        else
          let column := columnOf g col
          if column.length ≤ 1 then .error "The grid bounds are not consistent."
          else
            match column.max?, column.min? with
            | some cmx, some cmn =>
              if row > cmx ∨ row < cmn then .ok false
              else
                match pyGet2 g.layout row col with
                | none => .error "IndexError: list index out of range"
                | some ch => if ch = '*' then .ok false else .ok true
            | _, _ => .error "ValueError: max/min of empty sequence"
      | _, _ => .error "ValueError: max/min of empty sequence"

/-- `GridSearch.set_start`. -/
def set_start (g : Grid) (row col : Int) : Except String Grid :=
  match is_valid g row col with
  | .error e => .error e
  | .ok false => .error "The start position is not valid."
  | .ok true =>
    let lay0 :=
      match g.start with
      | none => some g.layout
      | some s => setCell g.layout s.1 s.2 ' '
    match lay0 with
    | none => .error "IndexError: list index out of range"
    | some l0 =>
      match setCell l0 row col 'S' with
      | none => .error "IndexError: list index out of range"
      | some l1 => .ok { g with layout := l1, start := some (row, col) }

/-- `GridSearch.set_goal`. -/
def set_goal (g : Grid) (row col : Int) : Except String Grid :=
  match is_valid g row col with
  | .error e => .error e
  | .ok false => .error "The goal position is not valid."
  | .ok true =>
    let lay0 :=
      match g.goal with
      | none => some g.layout
      | some s => setCell g.layout s.1 s.2 ' '
    match lay0 with
    | none => .error "IndexError: list index out of range"
    | some l0 =>
      match setCell l0 row col 'G' with
      | none => .error "IndexError: list index out of range"
      | some l1 => .ok { g with layout := l1, goal := some (row, col) }

/-- `GridSearch.add_obstacle`. -/
def add_obstacle (g : Grid) (row col : Int) : Except String Grid :=
  match is_valid g row col with
  | .error e => .error e
  | .ok false => .error "The obstacle position is not valid."
  | .ok true =>
    match setCell g.layout row col '#' with
    | none => .error "IndexError: list index out of range"
    | some l1 => .ok { g with layout := l1 }

/-- `GridSearch.del_obstacle` (note the lower-case message in the source). -/
def del_obstacle (g : Grid) (row col : Int) : Except String Grid :=
  match is_valid g row col with
  | .error e => .error e
  | .ok false => .error "the obstacle position is not valid."
  | .ok true =>
    match setCell g.layout row col ' ' with
    | none => .error "IndexError: list index out of range"
    | some l1 => .ok { g with layout := l1 }

/-- `GridSearch.set_motion` (the `prob` argument is not modelled, see the
header notes). -/
def set_motion (g : Grid) (offset : List (Int × Int)) : Grid :=
  { g with offset := offset }

/-- `GridSearch.order_dir`, deterministic branch (`self.prob is None`):
`np.arange(len(self.offset))`. -/
def order_dir (g : Grid) : List Nat :=
  List.range g.offset.length

/-! ## The stack (file `Stack.py`) -/

/-- The `Stack` class: a list whose back is the top, plus the tracked size. -/
structure Stack (α : Type) where
  items : List α
  size : Nat
deriving DecidableEq

/-- `Stack()` with no initial list. -/
def Stack.initEmpty {α : Type} : Stack α := ⟨[], 0⟩

/-- `Stack.push`. -/
def Stack.push {α : Type} (s : Stack α) (x : α) : Stack α :=
  { items := s.items ++ [x], size := s.size + 1 }

/-- `Stack.is_empty` followed by `Stack.pop`: `none` when the stack reports
empty, otherwise the top item and the remaining stack. -/
def Stack.pop {α : Type} (s : Stack α) : Option (α × Stack α) :=
  if s.size = 0 then none
  else
    match s.items.getLast? with
    | none => none
    | some x => some (x, { items := s.items.dropLast, size := s.size - 1 })

/-! ## The queue (file `Queue.py`) -/

/-- The `Queue` class: a list whose front is the head, plus the tracked size. -/
structure Queue (α : Type) where
  items : List α
  size : Nat
deriving DecidableEq

/-- `Queue()` with no initial list. -/
def Queue.initEmpty {α : Type} : Queue α := ⟨[], 0⟩

/-- `Queue.enqueue`. -/
def Queue.enqueue {α : Type} (s : Queue α) (x : α) : Queue α :=
  { items := s.items ++ [x], size := s.size + 1 }

/-- `Queue.is_empty` followed by `Queue.dequeue` (`items.pop(0)`). -/
def Queue.dequeue {α : Type} (s : Queue α) : Option (α × Queue α) :=
  if s.size = 0 then none
  else
    match s.items.head? with
    | none => none
    | some x => some (x, { items := s.items.tail, size := s.size - 1 })

/-! ## The sorted priority queue (file `PriorityQueue.py`)

Priorities in the source are numbers together with the two `float` sentinels
`-inf` and `+inf`; they are modelled by `WithBot (WithTop Int)`.  The payload of
the sentinel entries (the string `'dummy'` in the source, never compared or
returned) is modelled by `default`. -/

/-- The priority type: an integer priority or one of the infinite sentinels. -/
abbrev P : Type := WithBot (WithTop Int)

/-- The finite priority `n`. -/
def Pint (n : Int) : P := ((n : WithTop Int) : P)

/-- The `+inf` sentinel. -/
def Ppinf : P := ((⊤ : WithTop Int) : P)

/-- The `PriorityQueue` class.  `queue_type = true` models the string
`'max'`; any other string behaves as `'min'` in the source. -/
structure PriorityQueue (β : Type) where
  queue_type : Bool
  items : List (P × β)
  size : Nat
deriving DecidableEq

/-- `PriorityQueue()` with no initial list: the two sentinel entries,
reversed for a max-queue. -/
def PriorityQueue.init (β : Type) [Inhabited β] (queue_type : Bool) :
    PriorityQueue β :=
  { queue_type := queue_type
    items :=
      if queue_type then [((⊥ : P), default), (Ppinf, default)].reverse
      else [((⊥ : P), default), (Ppinf, default)]
    size := 0 }

/-- The binary-search comparison of `PriorityQueue.put`: for a max-queue
`priority <= p`, otherwise `priority >= p`. -/
def pqFlag (queue_type : Bool) (priority p : P) : Bool :=
  if queue_type then decide (priority ≤ p) else decide (p ≤ priority)

/-- The binary-search loop of `PriorityQueue.put` (`while right > left + 1`),
with explicit fuel (the entry point supplies `right - left`, enough because
`right - left` shrinks every iteration). -/
def searchPos {β : Type} [Inhabited β] (queue_type : Bool)
    (items : List (P × β)) (priority : P) : Nat → Nat → Nat → Nat
  | 0, _, right => right
  | fuel + 1, left, right =>
    if right > left + 1 then
      let middle := (left + right) / 2
      let p := (items.getD middle ((⊥ : P), default)).1
      if pqFlag queue_type priority p then searchPos queue_type items priority fuel middle right
      else searchPos queue_type items priority fuel left middle
    else right

/-- `PriorityQueue.put`. -/
def PriorityQueue.put {β : Type} [Inhabited β] (q : PriorityQueue β)
    (priority : Int) (item : β) : PriorityQueue β :=
  let right := searchPos q.queue_type q.items (Pint priority) (q.size + 1) 0 (q.size + 1)
  { q with items := q.items.insertIdx right (Pint priority, item), size := q.size + 1 }

/-- `PriorityQueue.is_empty` followed by `PriorityQueue.get`
(`items.pop(1)`). -/
def PriorityQueue.get {β : Type} (q : PriorityQueue β) :
    Option ((P × β) × PriorityQueue β) :=
  if q.size = 0 then none
  else
    match q.items[1]? with
    | none => none
    | some e => some (e, { q with items := q.items.eraseIdx 1, size := q.size - 1 })

/-- `PriorityQueue.peek`. -/
def PriorityQueue.peek {β : Type} (q : PriorityQueue β) : Option (P × β) :=
  if q.size = 0 then none else q.items[1]?

/-! ## The binary heap (file `BinaryHeap.py`)

The Python list keeps a dummy element at position 0; the model stores only the
real items, so the Python 1-based position `i` lives at Lean position `i - 1`
(accessor `nth1`).  `heap_type = true` models the string `'max'`. -/

/-- The strict comparison used by all heap swap conditions:
`hless t a b` says that `a` is strictly more extreme than `b` for heap type
`t` (`a < b` for a min-heap, `a > b` for a max-heap). -/
def hless {α : Type} [LinearOrder α] (t : Bool) (a b : α) : Prop :=
  if t then b < a else a < b

instance hless.dec {α : Type} [LinearOrder α] (t : Bool) (a b : α) :
    Decidable (hless t a b) := by
  unfold hless; infer_instance

/-- Python `items[i]` for the 1-based heap position `i` (dummy dropped). -/
def nth1 {α : Type} [Inhabited α] (l : List α) (i : Nat) : α :=
  l.getD (i - 1) default

/-- Swap the items at 1-based heap positions `i` and `j`. -/
def swap1 {α : Type} [Inhabited α] (l : List α) (i j : Nat) : List α :=
  let a := nth1 l i
  let b := nth1 l j
  (l.set (i - 1) b).set (j - 1) a

/-- `find_min_max`: the more extreme of the two children of node `idx`
(1-based); the left child alone when there is no right child. -/
def find_min_max {α : Type} [LinearOrder α] [Inhabited α]
    (items : List α) (idx : Nat) (heap_type : Bool) : Nat :=
  let size := items.length
  let left := 2 * idx
  let right := 2 * idx + 1
  if right > size then left
  else if hless heap_type (nth1 items left) (nth1 items right) then left
  else right

/-- The `BinaryHeap` class (without the Python dummy slot, see above). -/
structure BinaryHeap (α : Type) where
  heap_type : Bool
  items : List α
  size : Nat
deriving DecidableEq

/-- `BinaryHeap()` with no initial list. -/
def BinaryHeap.initEmpty (α : Type) (heap_type : Bool) : BinaryHeap α :=
  { heap_type := heap_type, items := [], size := 0 }

/-- The loop of `BinaryHeap.swap_up` (`while ic // 2 > 0`) with explicit fuel;
`ic` strictly decreases, so fuel `ic` is enough. -/
def swap_up_go {α : Type} [LinearOrder α] [Inhabited α] (t : Bool) :
    Nat → List α → Nat → List α
  | 0, l, _ => l
  | fuel + 1, l, ic =>
    if ic / 2 > 0 then
      let ip := ic / 2
      let l2 := if hless t (nth1 l ic) (nth1 l ip) then swap1 l ip ic else l
      swap_up_go t fuel l2 ip
    else l

/-- `BinaryHeap.swap_up`. -/
def swap_up {α : Type} [LinearOrder α] [Inhabited α]
    (t : Bool) (l : List α) (ic : Nat) : List α :=
  swap_up_go t ic l ic

/-- The loop of `BinaryHeap.swap_down` (`while 2 * ip <= size`) with explicit
fuel; `ip` strictly increases and stays `≤ size`, so fuel `length + 1` is
enough. -/
def swap_down_go {α : Type} [LinearOrder α] [Inhabited α] (t : Bool) :
    Nat → List α → Nat → List α
  | 0, l, _ => l
  | fuel + 1, l, ip =>
    if 2 * ip ≤ l.length then
      let ic := find_min_max l ip t
      let l2 := if hless t (nth1 l ic) (nth1 l ip) then swap1 l ip ic else l
      swap_down_go t fuel l2 ic
    else l

/-- `BinaryHeap.swap_down`. -/
def swap_down {α : Type} [LinearOrder α] [Inhabited α]
    (t : Bool) (l : List α) (ip : Nat) : List α :=
  swap_down_go t (l.length + 1) l ip

/-- `BinaryHeap.put`. -/
def BinaryHeap.put {α : Type} [LinearOrder α] [Inhabited α]
    (h : BinaryHeap α) (item : α) : BinaryHeap α :=
  let items := h.items ++ [item]
  let size := h.size + 1
  { h with items := swap_up h.heap_type items size, size := size }

/-- `BinaryHeap.get` (`None` when empty, else remove and return the root,
move the last item to the root and sift it down). -/
def BinaryHeap.get {α : Type} [LinearOrder α] [Inhabited α]
    (h : BinaryHeap α) : Option (α × BinaryHeap α) :=
  if h.size = 0 then none
  else
    match h.items.head?, h.items.getLast? with
    | some root, some last =>
      let items1 := (h.items.set 0 last).dropLast
      some (root, { h with items := swap_down h.heap_type items1 1, size := h.size - 1 })
    | _, _ => none

/-- `BinaryHeap.peek`. -/
def BinaryHeap.peek {α : Type} (h : BinaryHeap α) : Option α :=
  if h.size = 0 then none else h.items.head?

/-! ## Path reconstruction and the search loop (file `GridSearch.py`)

All four search methods share one loop shape; the embedding factors it into
`searchLoop`, parametrised by the frontier popping/pushing operations of the
individual algorithm, exactly as the four Python methods instantiate it. -/

/-- The predecessor dictionary `previous`, newest insertion first. -/
abbrev Prev : Type := List (Cell × Option Cell)

/-- `previous[c]` / `c in previous`: `none` when the key is missing. -/
def lookupPrev (prev : Prev) (c : Cell) : Option (Option Cell) :=
  (prev.find? (fun e => decide (e.1 = c))).map (fun e => e.2)

/-- The `while current is not None` loop of `GridSearch.get_path`, building
the goal-to-start cell list; fueled (a missing key is Python's `KeyError`). -/
def walkPath (prev : Prev) : Nat → Cell → Except String (List Cell)
  | 0, _ => .error "RecursionError: predecessor chain too long"
  | fuel + 1, c =>
    match lookupPrev prev c with
    | none => .error "KeyError: missing predecessor"
    | some none => .ok [c]
    | some (some p) =>
      match walkPath prev fuel p with
      | .error e => .error e
      | .ok rest => .ok (c :: rest)

/-- `GridSearch.get_path`: walk the predecessors from the goal and reverse. -/
def get_path (g : Grid) (prev : Prev) : Except String (List Cell) :=
  match g.goal with
  | none => .error "KeyError: missing predecessor"
  | some c =>
    match walkPath prev (prev.length + 1) c with
    | .error e => .error e
    | .ok path => .ok path.reverse

/-- Outcome of one search call: the `timeout` constructor is the fuel
sentinel (proven unreachable), `fail` models a Python exception escaping the
call, and `finish` carries the returned path (or `None`), the final
`previous` dictionary and the `visited` / `added` counters. -/
inductive SR : Type where
  | timeout
  | fail (msg : String)
  | finish (path : Option (List Cell)) (prev : Prev) (visited added : Nat)
deriving DecidableEq

/-- The `for direction in idx` neighbour-expansion loop shared by all four
search methods: read `self.offset[direction]`, form the neighbour, index the
layout (Python evaluates `self.layout[row_neigh][col_neigh]` before the
membership test, so an out-of-range neighbour raises here), and push fresh
non-`'#'`, non-`'*'` neighbours recording their predecessor. -/
def expand {σ : Type} (g : Grid) (pushC : σ → Cell → Cell → Except String σ)
    (current : Cell) :
    List Nat → σ → Prev → Nat → Except String (σ × Prev × Nat)
  | [], s, prev, added => .ok (s, prev, added)
  | direction :: rest, s, prev, added =>
    let off := g.offset.getD direction (0, 0)
    let neighbour : Cell := (current.1 + off.1, current.2 + off.2)
    match pyGet2 g.layout neighbour.1 neighbour.2 with
    | none => .error "IndexError: list index out of range"
    | some ch =>
      if ch ≠ '#' ∧ ch ≠ '*' ∧ lookupPrev prev neighbour = none then
        match pushC s current neighbour with
        | .error e => .error e
        | .ok s2 =>
          expand g pushC current rest s2 ((neighbour, some current) :: prev) (added + 1)
      else
        expand g pushC current rest s prev added

/-- The shared `while` loop of `dfs` / `bfs` / `A_star` / `Dijkstra`:
pop the frontier, count the visit, return the reconstructed path on the goal,
otherwise expand the neighbours in direction order and recurse. -/
def searchLoop {σ : Type} (g : Grid) (popC : σ → Option (Cell × σ))
    (pushC : σ → Cell → Cell → Except String σ) :
    Nat → σ → Prev → Nat → Nat → SR
  | 0, _, _, _, _ => .timeout
  | fuel + 1, s, prev, visited, added =>
    match popC s with
    | none => .finish none prev visited added
    | some (current, s1) =>
      if some current = g.goal then
        match get_path g prev with
        | .error e => .fail e
        | .ok path => .finish (some path) prev (visited + 1) added
      else
        match expand g pushC current (order_dir g) s1 prev added with
        | .error e => .fail e
        | .ok (s2, prev2, added2) => searchLoop g popC pushC fuel s2 prev2 (visited + 1) added2

/-- The longest row length of the layout. -/
def rowMax (g : Grid) : Nat :=
  g.layout.foldr (fun r m => max r.length m) 0

/-- A finite overapproximation of every key the predecessor dictionary can
ever hold: any cell whose layout lookup can succeed (Python indices wrap at
`-len`), plus the start cell. -/
def keySet (g : Grid) (s0 : Cell) : Finset Cell :=
  insert s0
    ((Finset.Icc (-(g.layout.length : Int)) (g.layout.length : Int)) ×ˢ
      (Finset.Icc (-(rowMax g : Int)) (rowMax g : Int)))

/-- Fuel for the search loop, proven sufficient below. -/
def searchFuel (g : Grid) (s0 : Cell) : Nat :=
  (keySet g s0).card + 1

/-- `GridSearch.dfs` (a `Stack` frontier). -/
def dfs (g : Grid) : SR :=
  match g.start with
  | none => .fail "TypeError: start is not set"
  | some s0 =>
    searchLoop g (fun st => st.pop) (fun st _ n => .ok (st.push n))
      (searchFuel g s0) (Stack.initEmpty.push s0) [(s0, none)] 0 1

/-- `GridSearch.bfs` (a `Queue` frontier). -/
def bfs (g : Grid) : SR :=
  match g.start with
  | none => .fail "TypeError: start is not set"
  | some s0 =>
    searchLoop g (fun q => q.dequeue) (fun q _ n => .ok (q.enqueue n))
      (searchFuel g s0) (Queue.initEmpty.enqueue s0) [(s0, none)] 0 1

/-- The local `heuristic` of `GridSearch.A_star`: Manhattan distance. -/
def heuristic (a b : Cell) : Int :=
  |a.1 - b.1| + |a.2 - b.2|

/-- The `g_values` dictionary of `A_star` / `Dijkstra`, newest first. -/
abbrev GV : Type := List (Cell × Int)

/-- `g_values[c]`. -/
def lookupGV (gv : GV) (c : Cell) : Option Int :=
  (gv.find? (fun e => decide (e.1 = c))).map (fun e => e.2)

/-- The push step of `A_star`: `g = g_values[current] + 1`,
`f = g + heuristic(goal, neighbour)`, insert into the priority queue and
record the neighbour's g-value. -/
def astarPush (g : Grid) (s : PriorityQueue Cell × GV) (current neighbour : Cell) :
    Except String (PriorityQueue Cell × GV) :=
  match lookupGV s.2 current with
  | none => .error "KeyError: g_values"
  | some gc =>
    match g.goal with
    | none => .error "TypeError: goal is not set"
    | some goal =>
      let gn := gc + 1
      let f := gn + heuristic goal neighbour
      .ok (s.1.put f neighbour, (neighbour, gn) :: s.2)

/-- The pop step of `A_star`: `f, current = pq.get()`. -/
def astarPop (s : PriorityQueue Cell × GV) :
    Option (Cell × (PriorityQueue Cell × GV)) :=
  match s.1.get with
  | none => none
  | some (e, pq2) => some (e.2, (pq2, s.2))

/-- `GridSearch.A_star` (a min `PriorityQueue` frontier keyed by f-values). -/
def A_star (g : Grid) : SR :=
  match g.start, g.goal with
  | some s0, some goal =>
    let f := 0 + heuristic goal s0
    let pq := (PriorityQueue.init Cell false).put f s0
    searchLoop g astarPop (astarPush g)
      (searchFuel g s0) (pq, ([(s0, 0)] : GV)) [(s0, none)] 0 1
  | _, _ => .fail "TypeError: start or goal is not set"

/-- The items of Dijkstra's binary heap: Python tuples `(g, (row, col))`
compared lexicographically. -/
abbrev DItem : Type := Lex (Int × Lex (Int × Int))

instance : Inhabited DItem := ⟨toLex (0, toLex ((0 : Int), (0 : Int)))⟩

instance : DecidableEq DItem := inferInstanceAs (DecidableEq (Int × Int × Int))

/-- The push step of `Dijkstra`: `g = g_values[current] + 1`, push
`(g, neighbour)` and record the neighbour's g-value. -/
def dijkstraPush (s : BinaryHeap DItem × GV) (current neighbour : Cell) :
    Except String (BinaryHeap DItem × GV) :=
  match lookupGV s.2 current with
  | none => .error "KeyError: g_values"
  | some gc =>
    let gn := gc + 1
    .ok (s.1.put (toLex (gn, toLex neighbour)), (neighbour, gn) :: s.2)

/-- The pop step of `Dijkstra`: `(g, current) = bh.get()`. -/
def dijkstraPop (s : BinaryHeap DItem × GV) :
    Option (Cell × (BinaryHeap DItem × GV)) :=
  match s.1.get with
  | none => none
  | some (it, bh2) => some (ofLex (ofLex it).2, (bh2, s.2))

/-- `GridSearch.Dijkstra` (a min `BinaryHeap` frontier keyed by g-values). -/
def Dijkstra (g : Grid) : SR :=
  match g.start with
  | none => .fail "TypeError: start is not set"
  | some s0 =>
    let bh := (BinaryHeap.initEmpty DItem false).put (toLex (0, toLex s0))
    searchLoop g dijkstraPop dijkstraPush
      (searchFuel g s0) (bh, ([(s0, 0)] : GV)) [(s0, none)] 0 1

/-! ## Specification-side predicates (from the wording of the spec) -/

/-- Spec wording: the cell lies within the row range of the grid
(`0 < row < number of rows`). -/
def inRowRange (g : Grid) (row : Int) : Prop :=
  0 < row ∧ row < (g.bound.length : Int)

/-- Spec wording: the cell lies within the column range derived from its
row's boundary columns. -/
def inColRangeOfRow (g : Grid) (row col : Int) : Prop :=
  ∃ k mx mn, pyGet g.bound row = some k ∧ k.max? = some mx ∧ k.min? = some mn ∧
    mn ≤ col ∧ col ≤ mx

/-- Spec wording: the cell lies within the row range derived from its
column's boundary rows. -/
def inRowRangeOfCol (g : Grid) (row col : Int) : Prop :=
  ∃ cmx cmn, (columnOf g col).max? = some cmx ∧ (columnOf g col).min? = some cmn ∧
    cmn ≤ row ∧ row ≤ cmx

/-- Spec wording: the cell is not itself a Boundary cell. -/
def notBoundaryAt (g : Grid) (row col : Int) : Prop :=
  ∃ ch, pyGet2 g.layout row col = some ch ∧ ch ≠ '*'

/-- Number of boundary (`'*'`) cells in column `c` of a set of layout rows
(spec wording: "a row or column with fewer than two boundary cells"). -/
def colStars (rows : List (List Char)) (c : Nat) : Nat :=
  (rows.filter (fun r => r.getD c ' ' = '*')).length

/-- The number of columns of a rectangular grid. -/
def ncols (g : Grid) : Nat := rowMax g

/-- The layout character at non-negative position `(i, j)`, blank by
default. -/
def cellD (g : Grid) (i j : Nat) : Char :=
  (g.layout.getD i []).getD j ' '

/-- The grid is rectangular and its whole perimeter consists of boundary
cells (the well-formedness under which the searches never index outside the
layout). -/
def Enclosed (g : Grid) : Prop :=
  (∀ row ∈ g.layout, row.length = ncols g) ∧
  ∀ i < g.layout.length, ∀ j < ncols g,
    (i = 0 ∨ i + 1 = g.layout.length ∨ j = 0 ∨ j + 1 = ncols g) → cellD g i j = '*'

/-- A strictly interior cell of a rectangular grid. -/
def GoodCell (g : Grid) (c : Cell) : Prop :=
  ∃ i j : Nat, c = ((i : Int), (j : Int)) ∧
    0 < i ∧ i + 1 < g.layout.length ∧ 0 < j ∧ j + 1 < ncols g

/-- All offsets are single steps (each component in `{-1, 0, 1}`). -/
def UnitOffsets (g : Grid) : Prop :=
  ∀ o ∈ g.offset, o.1.natAbs ≤ 1 ∧ o.2.natAbs ≤ 1

/-- The keys of a predecessor dictionary. -/
def prevKeys (prev : Prev) : List Cell := prev.map (fun e => e.1)

/-- Safety invariant of the dfs frontier: all stacked cells are interior. -/
def AllGoodS (g : Grid) (st : Stack Cell) : Prop :=
  ∀ c ∈ st.items, GoodCell g c

/-- Safety invariant of the bfs frontier: all queued cells are interior. -/
def AllGoodQ (g : Grid) (q : Queue Cell) : Prop :=
  ∀ c ∈ q.items, GoodCell g c

/-- Safety invariant of the `A_star` frontier: the stored list is the two
sentinels bracketing real entries whose cells are all interior. -/
def PQBracket (g : Grid) (s : PriorityQueue Cell × GV) : Prop :=
  ∃ mid : List (P × Cell),
    s.1.items = ((⊥ : P), (default : Cell)) :: mid ++ [(Ppinf, default)] ∧
    s.1.size = mid.length ∧ ∀ e ∈ mid, GoodCell g e.2

/-- Safety invariant of the `Dijkstra` frontier: sizes agree and all heap
items carry interior cells. -/
def HeapGood (g : Grid) (s : BinaryHeap DItem × GV) : Prop :=
  s.1.items.length = s.1.size ∧
  ∀ it ∈ s.1.items, GoodCell g (ofLex (ofLex it).2)

/-- The Python `IndexError` message used by the embedding. -/
def idxMsg : String := "IndexError: list index out of range"

/-- The `SystemExit` message of the boundary-consistency check. -/
def bndMsg : String := "The grid bounds are not consistent."

/-! ## Concrete inputs used by counterexamples and witnesses -/

/-- The 4-way motion offsets of `test_GridSearch.py`. -/
def offset4 : List (Int × Int) := [(-1, 0), (0, 1), (1, 0), (0, -1)]

/-- The 8-way motion offsets of `test_GridSearch.py`. -/
def offset8 : List (Int × Int) :=
  [(-1, 0), (-1, 1), (0, 1), (1, 1), (1, 0), (1, -1), (0, -1), (-1, -1)]

/-- A 3×3 grid whose only interior cell carries an obstacle. -/
def rowsObs : List (List Char) :=
  [['*', '*', '*'], ['*', '#', '*'], ['*', '*', '*']]

/-- A 3×3 grid with one free interior cell. -/
def rowsRing : List (List Char) :=
  [['*', '*', '*'], ['*', ' ', '*'], ['*', '*', '*']]

/-- A 5×5 open grid bounded by `'*'` on all edges. -/
def rowsOpen5 : List (List Char) :=
  [['*', '*', '*', '*', '*'],
   ['*', ' ', ' ', ' ', '*'],
   ['*', ' ', ' ', ' ', '*'],
   ['*', ' ', ' ', ' ', '*'],
   ['*', '*', '*', '*', '*']]

/-- A jagged grid that loads successfully although its column 2 has a single
boundary cell (rows `"*****"`, `"*   *"`, `"** **"`). -/
def rowsJag : List (List Char) :=
  [['*', '*', '*', '*', '*'],
   ['*', ' ', ' ', ' ', '*'],
   ['*', '*', ' ', '*', '*']]

/-- A jagged grid every one of whose rows and columns has at least two
boundary cells (rows `"*****"`, `"*   *"`, `"** **"`, `" ** *"`). -/
def rowsCons : List (List Char) :=
  [['*', '*', '*', '*', '*'],
   ['*', ' ', ' ', ' ', '*'],
   ['*', '*', ' ', '*', '*'],
   [' ', '*', '*', ' ', '*']]

/-- The grid object `load rowsJag` produces. -/
def gridJag : Grid :=
  { layout := rowsJag, bound := [[0, 1, 2, 3, 4], [0, 4], [0, 1, 3, 4]],
    start := none, goal := none, offset := [] }

/-- The grid object `load rowsRing` produces. -/
def gridRing : Grid :=
  { layout := rowsRing, bound := [[0, 1, 2], [0, 2], [0, 1, 2]],
    start := none, goal := none, offset := [] }

/-- The ring grid after `set_start(1, 1)`, `set_goal(1, 1)` and
`set_motion(offset4)`: start and goal coincide. -/
def gridTiny : Grid :=
  { layout := [['*', '*', '*'], ['*', 'G', '*'], ['*', '*', '*']],
    bound := [[0, 1, 2], [0, 2], [0, 1, 2]],
    start := some (1, 1), goal := some (1, 1), offset := offset4 }

/-- The 5×5 open grid after `set_start(1, 1)`, `set_goal(3, 3)` and
`set_motion(offset4)`. -/
def gridOpen5 : Grid :=
  { layout :=
      [['*', '*', '*', '*', '*'],
       ['*', 'S', ' ', ' ', '*'],
       ['*', ' ', ' ', ' ', '*'],
       ['*', ' ', ' ', 'G', '*'],
       ['*', '*', '*', '*', '*']],
    bound := [[0, 1, 2, 3, 4], [0, 4], [0, 4], [0, 4], [0, 1, 2, 3, 4]],
    start := some (1, 1), goal := some (3, 3), offset := offset4 }

/-! ## Operation sequences over the two priority structures

Claims C5 and C6 quantify over arbitrary sequences of interleaved `put` and
`get` calls; the sequences are modelled by small operation languages and
folds over them. -/

/-- The heap-order invariant of `BinaryHeap`: no node is strictly more
extreme (`hless`) than its parent (1-based positions, the parent of `p` is
`p / 2`). -/
def HeapInv {α : Type} [LinearOrder α] [Inhabited α] (t : Bool) (l : List α) : Prop :=
  ∀ p, 2 ≤ p → p ≤ l.length → ¬ hless t (nth1 l p) (nth1 l (p / 2))

/-- One client operation on a `BinaryHeap`. -/
inductive HOp (α : Type) where
  | put (x : α)
  | get
deriving DecidableEq

/-- Run one heap operation; the `Nat` component counts the successful
`get` calls (a `get` on an empty heap returns `None` and removes nothing). -/
def heapStep {α : Type} [LinearOrder α] [Inhabited α]
    (st : BinaryHeap α × Nat) (op : HOp α) : BinaryHeap α × Nat :=
  match op with
  | HOp.put x => (st.1.put x, st.2)
  | HOp.get =>
    match st.1.get with
    | none => st
    | some (_, h2) => (h2, st.2 + 1)

/-- Run a sequence of operations on an initially empty `BinaryHeap` of heap
type `t`, counting the successful `get` calls. -/
def heapRun {α : Type} [LinearOrder α] [Inhabited α]
    (t : Bool) (ops : List (HOp α)) : BinaryHeap α × Nat :=
  ops.foldl heapStep (BinaryHeap.initEmpty α t, 0)

/-- The number of `put` operations in a sequence. -/
def countPuts {α : Type} (ops : List (HOp α)) : Nat :=
  (ops.filter fun op => match op with | HOp.put _ => true | HOp.get => false).length

/-- The run invariant of `BinaryHeap` after `n` `put` calls: the heap type
is unchanged, the stored list is in sync with `size`, it obeys the heap
ordering, and `size` plus the number of successful `get` calls is `n`. -/
def HeapWF {α : Type} [LinearOrder α] [Inhabited α]
    (t : Bool) (n : Nat) (st : BinaryHeap α × Nat) : Prop :=
  st.1.heap_type = t ∧ st.1.items.length = st.1.size ∧
  HeapInv t st.1.items ∧ st.1.size + st.2 = n

/-- The ordering kept by the `PriorityQueue` list from front to back:
non-decreasing priorities for a min-queue, non-increasing for a max-queue. -/
def qle (t : Bool) (a b : P) : Prop := if t then b ≤ a else a ≤ b

instance qle.dec (t : Bool) (a b : P) : Decidable (qle t a b) := by
  unfold qle; infer_instance

/-- The per-pair property of claim C6 over `(priority, timestamp)` entries:
the earlier entry has no worse priority, and among equal priorities the
earlier entry carries the strictly smaller (earlier) insertion timestamp. -/
def pqR (t : Bool) (a b : P × Nat) : Prop :=
  qle t a.1 b.1 ∧ (a.1 = b.1 → a.2 < b.2)

/-- The sentinel priority at the front of the stored list. -/
def pqLo (t : Bool) : P := if t then Ppinf else (⊥ : P)

/-- The sentinel priority at the back of the stored list. -/
def pqHi (t : Bool) : P := if t then (⊥ : P) else Ppinf

/-- One client operation on a `PriorityQueue`. -/
inductive POp where
  | put (pr : Int)
  | get
deriving DecidableEq

/-- Run one queue operation.  The stored payload of a `put` is the index of
the operation in the run (its timestamp), so that insertion order is
observable; the counter advances on every operation. -/
def pqStep (st : PriorityQueue Nat × Nat) (op : POp) : PriorityQueue Nat × Nat :=
  match op with
  | POp.put pr => (st.1.put pr st.2, st.2 + 1)
  | POp.get =>
    match st.1.get with
    | none => (st.1, st.2 + 1)
    | some (_, q2) => (q2, st.2 + 1)

/-- Run a sequence of interleaved operations on an initially empty
`PriorityQueue` of queue type `t`. -/
def pqRun (t : Bool) (ops : List POp) : PriorityQueue Nat × Nat :=
  ops.foldl pqStep (PriorityQueue.init Nat t, 0)

/-- Repeatedly `get` from a queue, listing the returned `(priority, item)`
pairs in order. -/
def pqDrain : Nat → PriorityQueue Nat → List (P × Nat)
  | 0, _ => []
  | fuel + 1, q =>
    match q.get with
    | none => []
    | some (e, q2) => e :: pqDrain fuel q2

/-- The run invariant of `PriorityQueue`: the stored list is the two
sentinels around `size` finite-priority entries whose timestamps are below
the operation counter, and the whole list is `pqR`-sorted. -/
def PQWF (t : Bool) (st : PriorityQueue Nat × Nat) : Prop :=
  st.1.queue_type = t ∧
  (∃ mid, st.1.items = (pqLo t, 0) :: mid ++ [(pqHi t, 0)] ∧
    mid.length = st.1.size ∧
    ∀ e ∈ mid, (∃ n : Int, e.1 = Pint n) ∧ e.2 < st.2) ∧
  st.1.items.Pairwise (pqR t)

/-! # Theorems

First the helper lemmas about loading, then the claim theorems. -/

/-- Helper: the boundary-building loop errors (always with the bounds
message) exactly when some row has fewer than two `'*'` cells. -/
theorem buildBound_error_char (rows : List (List Char)) :
    (buildBound rows = .error bndMsg ↔ ∃ row ∈ rows, (starsOf row).length ≤ 1) ∧
    (∀ e, buildBound rows = .error e → e = bndMsg) := by
  induction rows with
  | nil =>
    refine ⟨⟨fun h => ?_, fun ⟨row, h, _⟩ => ?_⟩, fun e h => ?_⟩
    · simp [buildBound] at h
    · simp at h
    · simp [buildBound] at h
  | cons row rest ih =>
    by_cases hb : (starsOf row).length ≤ 1
    · refine ⟨⟨fun _ => ⟨row, by simp, hb⟩, fun _ => ?_⟩, fun e h => ?_⟩
      · simp [buildBound, hb, bndMsg]
      · simp [buildBound, hb] at h
        exact h.symm
    · have hun : buildBound (row :: rest) =
          match buildBound rest with
          | .error e => .error e
          | .ok bs => .ok (starsOf row :: bs) := by
        simp [buildBound, hb]
      refine ⟨⟨fun h => ?_, fun h => ?_⟩, fun e h => ?_⟩
      · rw [hun] at h
        rcases hr : buildBound rest with e | bs
        · rw [hr] at h
          have he : e = bndMsg := by
            have := ih.2 e hr
            exact this
          refine (ih.1.mp ?_).imp fun r hr2 => ⟨List.mem_cons_of_mem _ hr2.1, hr2.2⟩
          rw [hr, he]
        · rw [hr] at h; exact absurd h (by simp)
      · rcases h with ⟨r, hmem, hlen⟩
        rcases List.mem_cons.mp hmem with rfl | hmem2
        · exact absurd hlen hb
        · have := ih.1.mpr ⟨r, hmem2, hlen⟩
          rw [hun, this]
      · rw [hun] at h
        rcases hr : buildBound rest with e2 | bs
        · rw [hr] at h
          have h2 : e2 = e := by simpa using h
          exact h2 ▸ ih.2 e2 hr
        · rw [hr] at h; exact absurd h (by simp)

/-- Helper: `load` errors (always with the bounds message) exactly when some
row has fewer than two `'*'` cells. -/
theorem load_error_iff (rows : List (List Char)) :
    load rows = .error bndMsg ↔ ∃ row ∈ rows, (starsOf row).length ≤ 1 := by
  unfold load
  rcases hr : buildBound rows with e | b
  · have he : e = bndMsg := (buildBound_error_char rows).2 e hr
    subst he
    simpa using (buildBound_error_char rows).1.mp hr
  · constructor
    · intro h; exact absurd h (by simp)
    · intro h
      have := (buildBound_error_char rows).1.mpr h
      rw [hr] at this
      exact absurd this (by simp)

/-- Claim C3 (corrected), counterexample: a grid whose column 2 has exactly
one boundary cell loads successfully and yields a usable grid object, so the
load-time structural check does not cover columns. -/
theorem load_accepts_deficient_column :
    (load rowsJag).toOption.isSome = true ∧ colStars rowsJag 2 = 1 := by
  constructor <;> rfl

/-- Claim C3 (corrected, amended claim): loading fails with the fatal
structural error exactly when some ROW has fewer than two boundary cells;
deficient columns are not checked at load time (they surface later, inside
`is_valid`). -/
theorem load_fails_iff_deficient_row (rows : List (List Char)) :
    load rows = .error bndMsg ↔ ∃ row ∈ rows, (starsOf row).length ≤ 1 :=
  load_error_iff rows

/-- Witness for `load_fails_iff_deficient_row` at a concrete malformed
grid. -/
theorem load_fails_iff_deficient_row_witness :
    load [['*', ' '], ['*', '*']] = .error bndMsg :=
  (load_fails_iff_deficient_row [['*', ' '], ['*', '*']]).mpr
    ⟨['*', ' '], by simp, by decide⟩

/-- Claim C10 (confirmed): whenever the queried cell passes the row-range
and row-boundary-column checks but its column has fewer than two boundary
cells, `is_valid` raises the fatal bounds error at query time instead of
returning false, and every placement operation that calls it propagates the
same fatal error.  (The structural column check is thus performed at query
time, not at load time; compare `load_fails_iff_deficient_row`.) -/
theorem is_valid_column_check_at_query (g : Grid) (row col : Int)
    (k : List Int) (mx mn : Int)
    (h1 : ¬(row ≥ (g.bound.length : Int) ∨ row ≤ 0))
    (h2 : pyGet g.bound row = some k)
    (h3 : k.max? = some mx) (h4 : k.min? = some mn)
    (h5 : ¬(col > mx ∨ col < mn))
    (h6 : (columnOf g col).length ≤ 1) :
    is_valid g row col = .error bndMsg ∧
    set_start g row col = .error bndMsg ∧
    set_goal g row col = .error bndMsg ∧
    add_obstacle g row col = .error bndMsg ∧
    del_obstacle g row col = .error bndMsg := by
  have hv : is_valid g row col = .error bndMsg := by
    simp only [is_valid, h2, h3, h4]
    rw [if_neg h1, if_neg h5, if_pos h6]
    rfl
  exact ⟨hv, by simp [set_start, hv], by simp [set_goal, hv],
    by simp [add_obstacle, hv], by simp [del_obstacle, hv]⟩

/-- Witness for `is_valid_column_check_at_query`: the loaded jagged grid and
its cell `(1, 2)`, whose column has a single boundary cell. -/
theorem is_valid_column_check_at_query_witness :
    is_valid gridJag 1 2 = .error bndMsg ∧
    set_start gridJag 1 2 = .error bndMsg ∧
    set_goal gridJag 1 2 = .error bndMsg ∧
    add_obstacle gridJag 1 2 = .error bndMsg ∧
    del_obstacle gridJag 1 2 = .error bndMsg :=
  is_valid_column_check_at_query gridJag 1 2 [0, 4] 4 0
    (by decide) (by decide) (by decide) (by decide) (by decide) (by decide)

/-- Claim C4 (confirmed): calling a placement operation on a cell that
`is_valid` rejects reports the error and produces no new grid — in the pure
embedding the operation returns only the error, so the caller's grid value
(layout, start, goal) is untouched. -/
theorem placement_on_invalid_cell_is_noop (g : Grid) (row col : Int)
    (h : is_valid g row col = .ok false) :
    set_start g row col = .error "The start position is not valid." ∧
    set_goal g row col = .error "The goal position is not valid." ∧
    add_obstacle g row col = .error "The obstacle position is not valid." ∧
    del_obstacle g row col = .error "the obstacle position is not valid." := by
  exact ⟨by simp [set_start, h], by simp [set_goal, h],
    by simp [add_obstacle, h], by simp [del_obstacle, h]⟩

/-- Witness for `placement_on_invalid_cell_is_noop`: the boundary cell
`(1, 0)` of the loaded ring grid. -/
theorem placement_on_invalid_cell_is_noop_witness :
    set_start gridRing 1 0 = .error "The start position is not valid." ∧
    set_goal gridRing 1 0 = .error "The goal position is not valid." ∧
    add_obstacle gridRing 1 0 = .error "The obstacle position is not valid." ∧
    del_obstacle gridRing 1 0 = .error "the obstacle position is not valid." :=
  placement_on_invalid_cell_is_noop gridRing 1 0 (by decide)

/-- Claim C1 (corrected), counterexample: on the loaded grid `rowsObs` the
cell `(1, 1)` carries the Obstacle character `'#'`, yet `is_valid` returns
true — the claim requires false for an Obstacle cell. -/
theorem is_valid_accepts_obstacle :
    (load rowsObs).map (fun g => (is_valid g 1 1, pyGet2 g.layout 1 1)) =
      .ok (.ok true, some '#') := by decide

/-- Claim C1 (corrected, amended claim): `is_valid` returns true iff the
cell lies within the grid row range, within the column range derived from
its row's boundary columns, within the row range derived from its column's
boundary rows (that column having at least two boundary rows — otherwise the
fatal bounds error), and is not itself a Boundary cell.  Obstacle (`'#'`)
cells are NOT excluded: `is_valid` accepts them (which is what lets
`del_obstacle` remove an existing obstacle). -/
theorem is_valid_true_iff (g : Grid) (row col : Int) :
    is_valid g row col = .ok true ↔
      (inRowRange g row ∧ inColRangeOfRow g row col ∧
        2 ≤ (columnOf g col).length ∧ inRowRangeOfCol g row col ∧
        notBoundaryAt g row col) := by
  constructor
  · intro h
    unfold is_valid at h
    simp only [] at h
    by_cases hrow : (row ≥ (g.bound.length : Int) ∨ row ≤ 0)
    · rw [if_pos hrow] at h; exact absurd h (by simp)
    · rw [if_neg hrow] at h
      split at h
      · exact absurd h (by simp)
      rename_i k hk
      split at h
      case _ =>
        rename_i mx mn hmx hmn
        by_cases hcr : (col > mx ∨ col < mn)
        · rw [if_pos hcr] at h; exact absurd h (by simp)
        rw [if_neg hcr] at h
        by_cases hcl : (columnOf g col).length ≤ 1
        · rw [if_pos hcl] at h; exact absurd h (by simp)
        rw [if_neg hcl] at h
        split at h
        case _ =>
          rename_i cmx cmn hcmx hcmn
          by_cases hrr : (row > cmx ∨ row < cmn)
          · rw [if_pos hrr] at h; exact absurd h (by simp)
          rw [if_neg hrr] at h
          split at h
          · exact absurd h (by simp)
          rename_i ch hch
          by_cases hstar : ch = '*'
          · rw [if_pos hstar] at h; exact absurd h (by simp)
          refine ⟨⟨by omega, by omega⟩,
            ⟨k, mx, mn, hk, hmx, hmn, by omega, by omega⟩,
            by omega,
            ⟨cmx, cmn, hcmx, hcmn, by omega, by omega⟩,
            ⟨ch, hch, hstar⟩⟩
        case _ => exact absurd h (by simp)
      case _ => exact absurd h (by simp)
  · rintro ⟨⟨hr1, hr2⟩, ⟨k, mx, mn, hk, hmx, hmn, hc1, hc2⟩, hlen,
      ⟨cmx, cmn, hcmx, hcmn, hrr1, hrr2⟩, ⟨ch, hch, hstar⟩⟩
    simp only [is_valid, hk, hmx, hmn, hcmx, hcmn, hch]
    rw [if_neg (by omega), if_neg (by omega), if_neg (by omega),
      if_neg (by omega), if_neg hstar]

/-- Witness for `is_valid_true_iff`: the interior cell of the ring grid. -/
theorem is_valid_true_iff_witness :
    is_valid gridRing 1 1 = .ok true :=
  (is_valid_true_iff gridRing 1 1).mpr
    ⟨⟨by decide, by decide⟩,
      ⟨[0, 2], 2, 0, by decide, by decide, by decide, by decide, by decide⟩,
      by decide,
      ⟨2, 0, by decide, by decide, by decide, by decide⟩,
      ⟨' ', by decide, by decide⟩⟩

/-- Claim C2 (corrected), counterexample: the jagged grid `rowsJag` loads,
start `(1, 1)` and goal `(1, 3)` are valid, the motion spec is the standard
4-way one, yet `dfs` evaluates `layout[3][2]` on a 3-row layout — the
neighbour lookup is performed without any bounds check and reads outside the
layout (the run dies with `IndexError`). -/
theorem dfs_reads_outside_layout :
    ((load rowsJag).bind (fun g => (set_start g 1 1).bind (fun g =>
      (set_goal g 1 3).map (fun g => set_motion g offset4)))).map
      (fun g => (is_valid g 1 1, is_valid g 1 3, dfs g)) =
    .ok (.ok true, .ok true, .fail idxMsg) := by decide

/-- Claim C9 (corrected), counterexample: a loaded grid whose every row and
every column has at least two boundary cells, valid start `(1, 1)` and goal
`(1, 3)`, the standard 8-way motion spec — and `dfs` terminates with an
`IndexError` from an out-of-layout lookup instead of returning a path or
`None`. -/
theorem search_raises_on_consistent_grid :
    (∀ r ∈ rowsCons, 2 ≤ (starsOf r).length) ∧
    (∀ c < 5, 2 ≤ colStars rowsCons c) ∧
    ((load rowsCons).bind (fun g => (set_start g 1 1).bind (fun g =>
      (set_goal g 1 3).map (fun g => set_motion g offset8)))).map
      (fun g => (is_valid g 1 1, is_valid g 1 3, dfs g)) =
    .ok (.ok true, .ok true, .fail idxMsg) := by decide

/-! ## Helper lemmas about indexing and the predecessor dictionary -/

/-- A successful Python read bounds the index. -/
theorem pyGet_some_bounds {α : Type} (l : List α) (i : Int) (x : α)
    (h : pyGet l i = some x) : -(l.length : Int) ≤ i ∧ i < (l.length : Int) := by
  unfold pyGet pyIdx at h
  split_ifs at h with h1 h2 h3
  · constructor <;> omega
  · simp at h
  · constructor <;> omega
  · simp at h

/-- A successful Python read of a non-negative index is a plain list read. -/
theorem pyGet_natCast {α : Type} (l : List α) (i : Nat) :
    pyGet l (i : Int) = l[i]? := by
  unfold pyGet pyIdx
  rw [if_pos (by omega)]
  have ht : ((i : Int)).toNat = i := rfl
  rw [ht]
  by_cases h : i < l.length
  · rw [if_pos h]
    simp
  · rw [if_neg h]
    simp [List.getElem?_eq_none (le_of_not_lt h)]

/-- Helper for `rowMax`: a member's length is below the folded maximum. -/
theorem length_le_foldrMax (L : List (List Char)) (row : List Char)
    (h : row ∈ L) :
    row.length ≤ L.foldr (fun r m => max r.length m) 0 := by
  induction L with
  | nil => simp at h
  | cons a t ih =>
    rcases List.mem_cons.mp h with rfl | h2
    · simp
    · simp only [List.foldr_cons]
      exact le_trans (ih h2) (le_max_right _ _)

/-- Every row is at most `rowMax` long. -/
theorem length_le_rowMax (g : Grid) (row : List Char) (h : row ∈ g.layout) :
    row.length ≤ rowMax g :=
  length_le_foldrMax g.layout row h

/-- A successful layout lookup puts the cell inside the finite key space. -/
theorem pyGet2_some_mem_keySet (g : Grid) (s0 : Cell) (r c : Int) (ch : Char)
    (h : pyGet2 g.layout r c = some ch) : (r, c) ∈ keySet g s0 := by
  unfold pyGet2 at h
  rcases hrow : pyGet g.layout r with _ | lrow
  · rw [hrow] at h; simp at h
  · rw [hrow] at h
    rw [Option.some_bind] at h
    have hb1 := pyGet_some_bounds _ _ _ hrow
    have hb2 := pyGet_some_bounds _ _ _ h
    have hmem : lrow ∈ g.layout := by
      unfold pyGet at hrow
      rcases hidx : pyIdx g.layout.length r with _ | n
      · rw [hidx] at hrow; simp at hrow
      · rw [hidx] at hrow
        rw [Option.some_bind] at hrow
        exact List.getElem?_mem hrow
    have hlen : lrow.length ≤ rowMax g := length_le_rowMax g lrow hmem
    unfold keySet
    apply Finset.mem_insert_of_mem
    rw [Finset.mem_product]
    constructor
    · rw [Finset.mem_Icc]; omega
    · rw [Finset.mem_Icc]; omega

/-- `lookupPrev` misses exactly the non-keys. -/
theorem lookupPrev_eq_none (prev : Prev) (c : Cell) :
    lookupPrev prev c = none ↔ c ∉ prevKeys prev := by
  unfold lookupPrev prevKeys
  rw [Option.map_eq_none', List.find?_eq_none]
  constructor
  · intro h hc
    rcases List.mem_map.mp hc with ⟨e, hmem, heq⟩
    exact absurd (by simp [heq]) (h e hmem)
  · intro h e hmem
    simp only [decide_eq_true_eq]
    intro heq
    exact h (List.mem_map.mpr ⟨e, hmem, heq⟩)

/-- A list of distinct elements of a finite set is no longer than the set. -/
theorem nodup_subset_card {l : List Cell} {s : Finset Cell}
    (hnd : l.Nodup) (hsub : ∀ x ∈ l, x ∈ s) : l.length ≤ s.card := by
  rw [← List.toFinset_card_of_nodup hnd]
  exact Finset.card_le_card (fun x hx => hsub x (List.mem_toFinset.mp hx))

/-! ## Generic lemmas about the shared search loop -/

section SearchLemmas

variable {σ : Type} (g : Grid) (popC : σ → Option (Cell × σ))
  (pushC : σ → Cell → Cell → Except String σ)
  (sz : σ → Nat) (CInv : σ → Prop)

/-- Effect of one successful neighbour-expansion pass: the container
invariant is kept; frontier size, `added` and the predecessor dictionary all
grow by the same amount; every new predecessor entry was read successfully
from the layout; distinctness of the keys is preserved. -/
theorem expand_spec
    (hpush : ∀ s c n s', CInv s → pushC s c n = .ok s' → sz s' = sz s + 1 ∧ CInv s')
    (current : Cell) :
    ∀ (dirs : List Nat) (s : σ) (prev : Prev) (added : Nat)
      (s2 : σ) (prev2 : Prev) (added2 : Nat),
      CInv s →
      expand g pushC current dirs s prev added = .ok (s2, prev2, added2) →
      CInv s2 ∧
      sz s2 + prev.length = sz s + prev2.length ∧
      added2 + prev.length = added + prev2.length ∧
      ∃ new : Prev, prev2 = new ++ prev ∧
        (∀ e ∈ new, ∃ ch, pyGet2 g.layout e.1.1 e.1.2 = some ch) ∧
        ((prevKeys prev).Nodup → (prevKeys prev2).Nodup) := by
  intro dirs
  induction dirs with
  | nil =>
    intro s prev added s2 prev2 added2 hc h
    unfold expand at h
    simp only [Except.ok.injEq, Prod.mk.injEq] at h
    obtain ⟨h1, h2, h3⟩ := h
    subst h1; subst h2; subst h3
    exact ⟨hc, by omega, by omega, [], rfl, by simp, id⟩
  | cons d rest ih =>
    intro s prev added s2 prev2 added2 hc h
    unfold expand at h
    simp only [] at h
    split at h
    · exact absurd h (by simp)
    rename_i ch hch
    split at h
    case isTrue hcond =>
      split at h
      · exact absurd h (by simp)
      rename_i s' hpu
      obtain ⟨hps, hpc⟩ := hpush _ _ _ _ hc hpu
      obtain ⟨hc2, he1, he2, new, hnew, hmemnew, hnd⟩ := ih _ _ _ _ _ _ hpc h
      simp only [List.length_cons] at he1 he2
      refine ⟨hc2, by omega, by omega,
        new ++ [((current.1 + (g.offset.getD d (0, 0)).1,
          current.2 + (g.offset.getD d (0, 0)).2), some current)], ?_, ?_, ?_⟩
      · rw [hnew, List.append_cons]
      · intro e he
        rcases List.mem_append.mp he with he2m | he2m
        · exact hmemnew e he2m
        · have : e = ((current.1 + (g.offset.getD d (0, 0)).1,
              current.2 + (g.offset.getD d (0, 0)).2), some current) := by
            simpa using he2m
          subst this
          exact ⟨ch, hch⟩
      · intro hnd0
        apply hnd
        unfold prevKeys
        simp only [List.map_cons]
        refine List.Nodup.cons ?_ hnd0
        have := (lookupPrev_eq_none prev _).mp hcond.2.2
        simpa [prevKeys] using this
    case isFalse =>
      exact ih _ _ _ _ _ _ hc h

/-- The search loop never runs out of fuel: the key set bounds the number of
distinct cells ever pushed, and every iteration either shrinks the frontier
or enlarges the predecessor dictionary. -/
theorem searchLoop_ne_timeout
    (hpop : ∀ s c s', CInv s → popC s = some (c, s') → sz s = sz s' + 1 ∧ CInv s')
    (hpush : ∀ s c n s', CInv s → pushC s c n = .ok s' → sz s' = sz s + 1 ∧ CInv s')
    (s0 : Cell) :
    ∀ (fuel : Nat) (s : σ) (prev : Prev) (visited added : Nat),
      CInv s → (prevKeys prev).Nodup →
      (∀ kc ∈ prevKeys prev, kc ∈ keySet g s0) →
      (keySet g s0).card + sz s < fuel + prev.length →
      searchLoop g popC pushC fuel s prev visited added ≠ .timeout := by
  intro fuel
  induction fuel with
  | zero =>
    intro s prev visited added hc hnd hsub hlt
    have hle : prev.length ≤ (keySet g s0).card := by
      have h2 := nodup_subset_card hnd hsub
      simpa [prevKeys] using h2
    exact absurd hlt (by omega)
  | succ fuel ih =>
    intro s prev visited added hc hnd hsub hlt
    unfold searchLoop
    split
    · simp
    · rename_i current s1 heq
      split
      · split
        · simp
        · simp
      · split
        · simp
        · rename_i out s2 prev2 added2 heq2
          obtain ⟨hsz, hc1⟩ := hpop _ _ _ hc heq
          obtain ⟨hc2, he1, he2, new, hnew, hmemnew, hndi⟩ :=
            expand_spec g pushC sz CInv hpush current _ _ _ _ _ _ _ hc1 heq2
          apply ih s2 prev2 (visited + 1) added2 hc2 (hndi hnd) ?_ (by omega)
          intro kc hkc
          rw [hnew] at hkc
          unfold prevKeys at hkc
          rw [List.map_append] at hkc
          rcases List.mem_append.mp hkc with hm | hm
          · rcases List.mem_map.mp hm with ⟨e, hemem, rfl⟩
            obtain ⟨ch, hch⟩ := hmemnew e hemem
            have := pyGet2_some_mem_keySet g s0 e.1.1 e.1.2 ch hch
            simpa using this
          · exact hsub kc hm

/-- The counters of a finished search: the predecessor keys are distinct,
`added` counts them exactly, and `visited` never exceeds `added`. -/
theorem searchLoop_counters
    (hpop : ∀ s c s', CInv s → popC s = some (c, s') → sz s = sz s' + 1 ∧ CInv s')
    (hpop0 : ∀ s, CInv s → popC s = none → sz s = 0)
    (hpush : ∀ s c n s', CInv s → pushC s c n = .ok s' → sz s' = sz s + 1 ∧ CInv s') :
    ∀ (fuel : Nat) (s : σ) (prev : Prev) (visited added : Nat)
      (path : Option (List Cell)) (prev2 : Prev) (v2 a2 : Nat),
      CInv s → (prevKeys prev).Nodup → added = prev.length →
      visited + sz s ≤ added →
      searchLoop g popC pushC fuel s prev visited added = .finish path prev2 v2 a2 →
      (prevKeys prev2).Nodup ∧ a2 = prev2.length ∧ v2 ≤ a2 := by
  intro fuel
  induction fuel with
  | zero =>
    intro s prev visited added path prev2 v2 a2 hc hnd hadd hva h
    exact absurd h (by simp [searchLoop])
  | succ fuel ih =>
    intro s prev visited added path prev2 v2 a2 hc hnd hadd hva h
    unfold searchLoop at h
    split at h
    · rename_i heq
      simp only [SR.finish.injEq] at h
      obtain ⟨_, h2, h3, h4⟩ := h
      subst h2; subst h3; subst h4
      have := hpop0 _ hc heq
      exact ⟨hnd, hadd, by omega⟩
    · rename_i current s1 heq
      obtain ⟨hsz, hc1⟩ := hpop _ _ _ hc heq
      split at h
      · split at h
        · exact absurd h (by simp)
        · simp only [SR.finish.injEq] at h
          obtain ⟨_, h2, h3, h4⟩ := h
          subst h2; subst h3; subst h4
          exact ⟨hnd, hadd, by omega⟩
      · split at h
        · exact absurd h (by simp)
        · rename_i out s2 prev2' added2 heq2
          obtain ⟨hc2, he1, he2, new, hnew, hmemnew, hndi⟩ :=
            expand_spec g pushC sz CInv hpush current _ _ _ _ _ _ _ hc1 heq2
          exact ih s2 prev2' (visited + 1) added2 path prev2 v2 a2
            hc2 (hndi hnd) (by omega) (by omega) h

end SearchLemmas

/-! ## Size and invariant facts for the four frontier containers -/

/-- Stack popping: the item count drops by one and the tracked size stays in
sync. -/
theorem stack_pop_spec (st : Stack Cell) (c : Cell) (st' : Stack Cell)
    (hc : st.size = st.items.length) (h : st.pop = some (c, st')) :
    st.items.length = st'.items.length + 1 ∧ st'.size = st'.items.length := by
  unfold Stack.pop at h
  split_ifs at h with h0
  split at h
  · simp at h
  · rename_i x hlast
    simp only [Option.some.injEq, Prod.mk.injEq] at h
    obtain ⟨-, rfl⟩ := h
    have hne : st.items ≠ [] := by
      intro hnil; rw [hnil] at hlast; simp at hlast
    have hlen : 0 < st.items.length := List.length_pos.mpr hne
    constructor
    · simp only [List.length_dropLast]; omega
    · simp only [List.length_dropLast]; omega

/-- Stack popping nothing means the stack is empty. -/
theorem stack_pop_none (st : Stack Cell)
    (hc : st.size = st.items.length) (h : st.pop = none) :
    st.items.length = 0 := by
  unfold Stack.pop at h
  split_ifs at h with h0
  · omega
  · split at h
    · rename_i hlast
      simp [List.getLast?_eq_none_iff] at hlast
      simp [hlast]
    · simp at h

/-- Stack pushing: one more item, size in sync. -/
theorem stack_push_spec (st : Stack Cell) (n : Cell)
    (hc : st.size = st.items.length) :
    (st.push n).items.length = st.items.length + 1 ∧
    (st.push n).size = (st.push n).items.length := by
  simp [Stack.push, hc]

/-- Queue dequeuing: the item count drops by one, size in sync. -/
theorem queue_pop_spec (st : Queue Cell) (c : Cell) (st' : Queue Cell)
    (hc : st.size = st.items.length) (h : st.dequeue = some (c, st')) :
    st.items.length = st'.items.length + 1 ∧ st'.size = st'.items.length := by
  unfold Queue.dequeue at h
  split_ifs at h with h0
  split at h
  · simp at h
  · rename_i x hhead
    simp only [Option.some.injEq, Prod.mk.injEq] at h
    obtain ⟨-, rfl⟩ := h
    have hne : st.items ≠ [] := by
      intro hnil; rw [hnil] at hhead; simp at hhead
    have hlen : 0 < st.items.length := List.length_pos.mpr hne
    constructor
    · simp only [List.length_tail]; omega
    · simp only [List.length_tail]; omega

/-- Queue dequeuing nothing means the queue is empty. -/
theorem queue_pop_none (st : Queue Cell)
    (hc : st.size = st.items.length) (h : st.dequeue = none) :
    st.items.length = 0 := by
  unfold Queue.dequeue at h
  split_ifs at h with h0
  · omega
  · split at h
    · rename_i hhead
      simp [List.head?_eq_none_iff] at hhead
      simp [hhead]
    · simp at h

/-- Queue enqueuing: one more item, size in sync. -/
theorem queue_push_spec (st : Queue Cell) (n : Cell)
    (hc : st.size = st.items.length) :
    (st.enqueue n).items.length = st.items.length + 1 ∧
    (st.enqueue n).size = (st.enqueue n).items.length := by
  simp [Queue.enqueue, hc]

/-- The binary-search insertion point never exceeds its `right` argument. -/
theorem searchPos_le_right {β : Type} [Inhabited β] (t : Bool)
    (items : List (P × β)) (pr : P) :
    ∀ (fuel left right : Nat), searchPos t items pr fuel left right ≤ right := by
  intro fuel
  induction fuel with
  | zero => intro l r; exact le_refl r
  | succ fuel ih =>
    intro l r
    unfold searchPos
    split
    · rename_i hlr
      dsimp only
      split
      · exact ih _ r
      · exact le_trans (ih l _) (by omega)
    · exact le_refl r

/-- `PriorityQueue.put`: one more stored pair, size in sync. -/
theorem pq_put_spec {β : Type} [Inhabited β] (q : PriorityQueue β)
    (pr : Int) (it : β) (hc : q.items.length = q.size + 2) :
    (q.put pr it).items.length = q.items.length + 1 ∧
    (q.put pr it).size = q.size + 1 := by
  unfold PriorityQueue.put
  refine ⟨?_, rfl⟩
  have hle : searchPos q.queue_type q.items (Pint pr) (q.size + 1) 0 (q.size + 1)
      ≤ q.size + 1 := searchPos_le_right _ _ _ _ _ _
  exact List.length_insertIdx _ _ (by omega)

/-- `A_star` popping: the queue size drops by one and the stored-pair count
stays in sync. -/
theorem astar_pop_spec (s : PriorityQueue Cell × GV) (c : Cell)
    (s' : PriorityQueue Cell × GV)
    (hc : s.1.items.length = s.1.size + 2) (h : astarPop s = some (c, s')) :
    s.1.size = s'.1.size + 1 ∧ s'.1.items.length = s'.1.size + 2 := by
  unfold astarPop at h
  rcases hg : s.1.get with _ | pr
  · rw [hg] at h; simp at h
  · rw [hg] at h
    simp only [Option.some.injEq, Prod.mk.injEq] at h
    obtain ⟨-, rfl⟩ := h
    unfold PriorityQueue.get at hg
    split_ifs at hg with h0
    split at hg
    · simp at hg
    · rename_i e hget
      simp only [Option.some.injEq] at hg
      subst hg
      have h1 : (1 : Nat) < s.1.items.length := by omega
      dsimp only
      constructor
      · omega
      · rw [List.length_eraseIdx_of_lt h1]; omega

/-- `A_star` popping nothing means the queue is empty. -/
theorem astar_pop_none (s : PriorityQueue Cell × GV)
    (hc : s.1.items.length = s.1.size + 2) (h : astarPop s = none) :
    s.1.size = 0 := by
  unfold astarPop PriorityQueue.get at h
  split_ifs at h with h0
  · exact h0
  · split at h
    · rename_i hget
      have h1 : (1 : Nat) < s.1.items.length := by omega
      rw [List.getElem?_eq_getElem h1] at hget
      simp at hget
    · simp at h

/-- `A_star` pushing: queue size up by one, pair count in sync. -/
theorem astar_push_spec (g : Grid) (s : PriorityQueue Cell × GV)
    (c n : Cell) (s' : PriorityQueue Cell × GV)
    (hc : s.1.items.length = s.1.size + 2) (h : astarPush g s c n = .ok s') :
    s'.1.size = s.1.size + 1 ∧ s'.1.items.length = s'.1.size + 2 := by
  unfold astarPush at h
  split at h
  · simp at h
  · split at h
    · simp at h
    · simp only [Except.ok.injEq] at h
      subst h
      obtain ⟨hl, hs⟩ := pq_put_spec s.1 _ n hc
      dsimp only
      exact ⟨hs, by omega⟩

/-- `swap1` preserves the item count. -/
theorem swap1_length {α : Type} [Inhabited α] (l : List α) (i j : Nat) :
    (swap1 l i j).length = l.length := by
  simp [swap1]

/-- The sift-up loop preserves the item count. -/
theorem swap_up_go_length {α : Type} [LinearOrder α] [Inhabited α] (t : Bool) :
    ∀ (fuel : Nat) (l : List α) (ic : Nat),
      (swap_up_go t fuel l ic).length = l.length := by
  intro fuel
  induction fuel with
  | zero => intro l ic; rfl
  | succ fuel ih =>
    intro l ic
    unfold swap_up_go
    split
    · rw [ih]
      split <;> simp [swap1_length]
    · rfl

/-- The sift-down loop preserves the item count. -/
theorem swap_down_go_length {α : Type} [LinearOrder α] [Inhabited α] (t : Bool) :
    ∀ (fuel : Nat) (l : List α) (ip : Nat),
      (swap_down_go t fuel l ip).length = l.length := by
  intro fuel
  induction fuel with
  | zero => intro l ip; rfl
  | succ fuel ih =>
    intro l ip
    unfold swap_down_go
    split
    · rw [ih]
      split <;> simp [swap1_length]
    · rfl

/-- `BinaryHeap.put`: one more item, size in sync. -/
theorem heap_put_spec {α : Type} [LinearOrder α] [Inhabited α]
    (h : BinaryHeap α) (item : α) (hc : h.items.length = h.size) :
    (h.put item).items.length = h.items.length + 1 ∧
    (h.put item).size = h.size + 1 := by
  unfold BinaryHeap.put swap_up
  dsimp only
  refine ⟨?_, rfl⟩
  rw [swap_up_go_length]
  simp

/-- `Dijkstra` popping: the heap size drops by one, item count in sync. -/
theorem dijkstra_pop_spec (s : BinaryHeap DItem × GV) (c : Cell)
    (s' : BinaryHeap DItem × GV)
    (hc : s.1.items.length = s.1.size) (h : dijkstraPop s = some (c, s')) :
    s.1.size = s'.1.size + 1 ∧ s'.1.items.length = s'.1.size := by
  unfold dijkstraPop at h
  rcases hg : s.1.get with _ | pr
  · rw [hg] at h; simp at h
  · rw [hg] at h
    unfold BinaryHeap.get at hg
    split_ifs at hg with h0
    split at hg
    · rename_i root last hhead hlast
      simp only [Option.some.injEq] at hg
      subst hg
      simp only [Option.some.injEq, Prod.mk.injEq] at h
      obtain ⟨-, rfl⟩ := h
      constructor
      · simp; omega
      · simp only []
        unfold swap_down
        rw [swap_down_go_length]
        simp only [List.length_dropLast, List.length_set]
        omega
    · simp at hg

/-- `Dijkstra` popping nothing means the heap is empty. -/
theorem dijkstra_pop_none (s : BinaryHeap DItem × GV)
    (hc : s.1.items.length = s.1.size) (h : dijkstraPop s = none) :
    s.1.size = 0 := by
  unfold dijkstraPop at h
  rcases hg : s.1.get with _ | pr
  · unfold BinaryHeap.get at hg
    split_ifs at hg with h0
    · exact h0
    · exfalso
      have hne : s.1.items ≠ [] := by
        intro hnil
        rw [hnil] at hc
        simp at hc
        omega
      rcases hx : s.1.items.head? with _ | x
      · exact absurd (List.head?_eq_none_iff.mp hx) hne
      · rcases hy : s.1.items.getLast? with _ | y
        · exact absurd (List.getLast?_eq_none_iff.mp hy) hne
        · rw [hx, hy] at hg
          simp at hg
  · rw [hg] at h
    simp at h

/-- `Dijkstra` pushing: heap size up by one, item count in sync. -/
theorem dijkstra_push_spec (s : BinaryHeap DItem × GV) (c n : Cell)
    (s' : BinaryHeap DItem × GV)
    (hc : s.1.items.length = s.1.size) (h : dijkstraPush s c n = .ok s') :
    s'.1.size = s.1.size + 1 ∧ s'.1.items.length = s'.1.size := by
  unfold dijkstraPush at h
  split at h
  · simp at h
  · simp only [Except.ok.injEq] at h
    subst h
    obtain ⟨hl, hs⟩ := heap_put_spec s.1 _ hc
    dsimp only
    exact ⟨hs, by omega⟩

/-- Claim C9 (corrected, amended claim): every one of the four search calls
terminates within the single call, on every grid: the shared loop provably
never exhausts its internal fuel, so each call always returns — with a path,
with `None`, or by raising an exception (the `IndexError` outcome exhibited
by `search_raises_on_consistent_grid`, which the original claim's "returns a
path or None" dichotomy omits). -/
theorem searches_terminate (g : Grid) :
    dfs g ≠ .timeout ∧ bfs g ≠ .timeout ∧
    A_star g ≠ .timeout ∧ Dijkstra g ≠ .timeout := by
  refine ⟨?_, ?_, ?_, ?_⟩
  · unfold dfs
    rcases g.start with _ | s0
    · simp
    · exact searchLoop_ne_timeout g (fun st => st.pop) (fun st _ n => .ok (st.push n))
        (fun st => st.items.length) (fun st => st.size = st.items.length)
        (fun s c s' hcv hp => stack_pop_spec s c s' hcv hp)
        (fun s c n s' hcv hp => by
          have hs : s.push n = s' := by simpa using hp
          subst hs
          exact stack_push_spec s n hcv)
        s0 (searchFuel g s0) (Stack.initEmpty.push s0) [(s0, none)] 0 1
        (by simp [Stack.initEmpty, Stack.push])
        (by simp [prevKeys])
        (fun kc hkc => by
          simp [prevKeys] at hkc
          subst hkc
          exact Finset.mem_insert_self _ _)
        (by simp [searchFuel, Stack.initEmpty, Stack.push])
  · unfold bfs
    rcases g.start with _ | s0
    · simp
    · exact searchLoop_ne_timeout g (fun q => q.dequeue) (fun q _ n => .ok (q.enqueue n))
        (fun q => q.items.length) (fun q => q.size = q.items.length)
        (fun s c s' hcv hp => queue_pop_spec s c s' hcv hp)
        (fun s c n s' hcv hp => by
          have hs : s.enqueue n = s' := by simpa using hp
          subst hs
          exact queue_push_spec s n hcv)
        s0 (searchFuel g s0) (Queue.initEmpty.enqueue s0) [(s0, none)] 0 1
        (by simp [Queue.initEmpty, Queue.enqueue])
        (by simp [prevKeys])
        (fun kc hkc => by
          simp [prevKeys] at hkc
          subst hkc
          exact Finset.mem_insert_self _ _)
        (by simp [searchFuel, Queue.initEmpty, Queue.enqueue])
  · unfold A_star
    split
    · rename_i s0 goal hstart hgoal
      obtain ⟨hl1, hs1⟩ :=
        pq_put_spec (PriorityQueue.init Cell false) (0 + heuristic goal s0) s0 rfl
      have hlen3 :
          ((PriorityQueue.init Cell false).put (0 + heuristic goal s0) s0).items.length = 3 := by
        rw [hl1]; rfl
      have hsz1 :
          ((PriorityQueue.init Cell false).put (0 + heuristic goal s0) s0).size = 1 := by
        rw [hs1]; rfl
      exact searchLoop_ne_timeout g astarPop (astarPush g)
        (fun s => s.1.size) (fun s => s.1.items.length = s.1.size + 2)
        (fun s c s' hcv hp => astar_pop_spec s c s' hcv hp)
        (fun s c n s' hcv hp => astar_push_spec g s c n s' hcv hp)
        s0 (searchFuel g s0)
        ((PriorityQueue.init Cell false).put (0 + heuristic goal s0) s0, ([(s0, 0)] : GV))
        [(s0, none)] 0 1
        (by
          show ((PriorityQueue.init Cell false).put (0 + heuristic goal s0) s0).items.length
            = ((PriorityQueue.init Cell false).put (0 + heuristic goal s0) s0).size + 2
          omega)
        (by simp [prevKeys])
        (fun kc hkc => by
          simp [prevKeys] at hkc
          subst hkc
          exact Finset.mem_insert_self _ _)
        (by
          show (keySet g s0).card
              + ((PriorityQueue.init Cell false).put (0 + heuristic goal s0) s0).size
            < searchFuel g s0 + ([(s0, none)] : Prev).length
          simp only [searchFuel, List.length_cons, List.length_nil]
          omega)
    · simp
  · unfold Dijkstra
    rcases g.start with _ | s0
    · simp
    · obtain ⟨hl1, hs1⟩ :=
        heap_put_spec (BinaryHeap.initEmpty DItem false) (toLex (0, toLex s0)) rfl
      have hlen1 :
          ((BinaryHeap.initEmpty DItem false).put (toLex (0, toLex s0))).items.length = 1 := by
        rw [hl1]; rfl
      have hsz1 :
          ((BinaryHeap.initEmpty DItem false).put (toLex (0, toLex s0))).size = 1 := by
        rw [hs1]; rfl
      exact searchLoop_ne_timeout g dijkstraPop dijkstraPush
        (fun s => s.1.size) (fun s => s.1.items.length = s.1.size)
        (fun s c s' hcv hp => dijkstra_pop_spec s c s' hcv hp)
        (fun s c n s' hcv hp => dijkstra_push_spec s c n s' hcv hp)
        s0 (searchFuel g s0)
        ((BinaryHeap.initEmpty DItem false).put (toLex (0, toLex s0)), ([(s0, 0)] : GV))
        [(s0, none)] 0 1
        (by
          show ((BinaryHeap.initEmpty DItem false).put (toLex (0, toLex s0))).items.length
            = ((BinaryHeap.initEmpty DItem false).put (toLex (0, toLex s0))).size
          omega)
        (by simp [prevKeys])
        (fun kc hkc => by
          simp [prevKeys] at hkc
          subst hkc
          exact Finset.mem_insert_self _ _)
        (by
          show (keySet g s0).card
              + ((BinaryHeap.initEmpty DItem false).put (toLex (0, toLex s0))).size
            < searchFuel g s0 + ([(s0, none)] : Prev).length
          simp only [searchFuel, List.length_cons, List.length_nil]
          omega)

/-- Claim C8 (confirmed): whenever a dfs or bfs call returns (with a path or
with `None`), the keys of its final predecessor dictionary are pairwise
distinct — a cell that is already a key is never pushed again — the `added`
counter equals the number of entries of that dictionary (the distinct cells
ever pushed, start included), and `visited ≤ added`. -/
theorem dfs_bfs_no_revisit (g : Grid) (path : Option (List Cell))
    (prev2 : Prev) (v2 a2 : Nat) :
    (dfs g = .finish path prev2 v2 a2 →
      (prevKeys prev2).Nodup ∧ a2 = prev2.length ∧ v2 ≤ a2) ∧
    (bfs g = .finish path prev2 v2 a2 →
      (prevKeys prev2).Nodup ∧ a2 = prev2.length ∧ v2 ≤ a2) := by
  constructor
  · unfold dfs
    rcases g.start with _ | s0
    · intro h; exact absurd h (by simp)
    · intro h
      exact searchLoop_counters g (fun st => st.pop) (fun st _ n => .ok (st.push n))
        (fun st => st.items.length) (fun st => st.size = st.items.length)
        (fun s c s' hcv hp => stack_pop_spec s c s' hcv hp)
        (fun s hcv hp => stack_pop_none s hcv hp)
        (fun s c n s' hcv hp => by
          have hs : s.push n = s' := by simpa using hp
          subst hs
          exact stack_push_spec s n hcv)
        (searchFuel g s0) (Stack.initEmpty.push s0) [(s0, none)] 0 1
        path prev2 v2 a2
        (by simp [Stack.initEmpty, Stack.push])
        (by simp [prevKeys])
        (by simp)
        (by simp [Stack.initEmpty, Stack.push])
        h
  · unfold bfs
    rcases g.start with _ | s0
    · intro h; exact absurd h (by simp)
    · intro h
      exact searchLoop_counters g (fun q => q.dequeue) (fun q _ n => .ok (q.enqueue n))
        (fun q => q.items.length) (fun q => q.size = q.items.length)
        (fun s c s' hcv hp => queue_pop_spec s c s' hcv hp)
        (fun s hcv hp => queue_pop_none s hcv hp)
        (fun s c n s' hcv hp => by
          have hs : s.enqueue n = s' := by simpa using hp
          subst hs
          exact queue_push_spec s n hcv)
        (searchFuel g s0) (Queue.initEmpty.enqueue s0) [(s0, none)] 0 1
        path prev2 v2 a2
        (by simp [Queue.initEmpty, Queue.enqueue])
        (by simp [prevKeys])
        (by simp)
        (by simp [Queue.initEmpty, Queue.enqueue])
        h

/-- Witness for `dfs_bfs_no_revisit` at the concrete `gridTiny` run. -/
theorem dfs_bfs_no_revisit_witness :
    (prevKeys [(((1 : Int), (1 : Int)), (none : Option Cell))]).Nodup ∧
    1 = [(((1 : Int), (1 : Int)), (none : Option Cell))].length ∧ 1 ≤ 1 :=
  (dfs_bfs_no_revisit gridTiny (some [(1, 1)])
    [((1, 1), none)] 1 1).1 (by decide)

/-- Claim C7 (confirmed): with start and goal set, valid, and equal, every
one of the four searches pops the start, recognises it as the goal before any
neighbour expansion, and returns the one-cell path `[start]` with
`visited = 1` and `added = 1`. -/
theorem start_eq_goal_single_cell (g : Grid) (s : Cell)
    (hst : g.start = some s) (hgl : g.goal = some s)
    (hv : is_valid g s.1 s.2 = .ok true) :
    dfs g = .finish (some [s]) [(s, none)] 1 1 ∧
    bfs g = .finish (some [s]) [(s, none)] 1 1 ∧
    A_star g = .finish (some [s]) [(s, none)] 1 1 ∧
    Dijkstra g = .finish (some [s]) [(s, none)] 1 1 := by
  have hpath : get_path g [(s, none)] = .ok [s] := by
    unfold get_path
    rw [hgl]
    simp [walkPath, lookupPrev]
  refine ⟨?_, ?_, ?_, ?_⟩
  · unfold dfs
    rw [hst]
    show searchLoop _ _ _ ((keySet g s).card + 1) _ _ _ _ = _
    rw [searchLoop]
    simp [Stack.initEmpty, Stack.push, Stack.pop, hgl, hpath]
  · unfold bfs
    rw [hst]
    show searchLoop _ _ _ ((keySet g s).card + 1) _ _ _ _ = _
    rw [searchLoop]
    simp [Queue.initEmpty, Queue.enqueue, Queue.dequeue, hgl, hpath]
  · unfold A_star
    rw [hst, hgl]
    show searchLoop _ _ _ ((keySet g s).card + 1) _ _ _ _ = _
    rw [searchLoop]
    simp [PriorityQueue.init, PriorityQueue.put, searchPos, astarPop,
      PriorityQueue.get, hgl, hpath]
  · unfold Dijkstra
    rw [hst]
    show searchLoop _ _ _ ((keySet g s).card + 1) _ _ _ _ = _
    rw [searchLoop]
    simp [BinaryHeap.initEmpty, BinaryHeap.put, BinaryHeap.get, swap_up,
      swap_up_go, swap_down, swap_down_go, dijkstraPop, hgl, hpath]

/-- Witness for `start_eq_goal_single_cell` at `gridTiny`. -/
theorem start_eq_goal_single_cell_witness :
    dfs gridTiny = .finish (some [(1, 1)]) [((1, 1), none)] 1 1 ∧
    bfs gridTiny = .finish (some [(1, 1)]) [((1, 1), none)] 1 1 ∧
    A_star gridTiny = .finish (some [(1, 1)]) [((1, 1), none)] 1 1 ∧
    Dijkstra gridTiny = .finish (some [(1, 1)]) [((1, 1), none)] 1 1 :=
  start_eq_goal_single_cell gridTiny (1, 1) rfl rfl (by decide)

/-! ## In-bounds safety of the searches on enclosed rectangular grids -/

/-- On a rectangular layout, an in-range non-negative lookup succeeds and
returns the `cellD` character. -/
theorem pyGet2_natCast (g : Grid) (i j : Nat)
    (hrect : ∀ row ∈ g.layout, row.length = ncols g)
    (hi : i < g.layout.length) (hj : j < ncols g) :
    pyGet2 g.layout (i : Int) (j : Int) = some (cellD g i j) := by
  unfold pyGet2
  rw [pyGet_natCast, List.getElem?_eq_getElem hi, Option.some_bind]
  have hrow : g.layout[i] ∈ g.layout := List.getElem_mem hi
  have hlen : g.layout[i].length = ncols g := hrect _ hrow
  have hj2 : j < g.layout[i].length := by omega
  rw [pyGet_natCast, List.getElem?_eq_getElem hj2]
  unfold cellD
  rw [List.getD_eq_getElem g.layout [] hi, List.getD_eq_getElem _ ' ' hj2]

/-- From a strictly interior cell, any single-step neighbour can be read
from the layout, and when its character is not `'*'` it is itself strictly
interior. -/
theorem neighbour_safe (g : Grid) (hencl : Enclosed g) (cur : Cell)
    (hcur : GoodCell g cur) (dr dc : Int)
    (hdr : dr.natAbs ≤ 1) (hdc : dc.natAbs ≤ 1) :
    ∃ ch, pyGet2 g.layout (cur.1 + dr) (cur.2 + dc) = some ch ∧
      (ch ≠ '*' → GoodCell g (cur.1 + dr, cur.2 + dc)) := by
  obtain ⟨i, j, hc, hi0, hiR, hj0, hjC⟩ := hcur
  obtain ⟨hrect, hperim⟩ := hencl
  have h1 : cur.1 = (i : Int) := by rw [hc]
  have h2 : cur.2 = (j : Int) := by rw [hc]
  set i2 : Nat := (cur.1 + dr).toNat with hi2
  set j2 : Nat := (cur.2 + dc).toNat with hj2
  have hri : cur.1 + dr = (i2 : Int) := by rw [h1]; omega
  have hrj : cur.2 + dc = (j2 : Int) := by rw [h2]; omega
  have hi2R : i2 < g.layout.length := by omega
  have hj2C : j2 < ncols g := by omega
  refine ⟨cellD g i2 j2, ?_, ?_⟩
  · rw [hri, hrj]
    exact pyGet2_natCast g i2 j2 hrect hi2R hj2C
  · intro hstar
    refine ⟨i2, j2, by rw [hri, hrj], ?_, ?_, ?_, ?_⟩
    · rcases Nat.eq_zero_or_pos i2 with h0 | h0
      · exact absurd (hperim i2 hi2R j2 hj2C (Or.inl h0)) hstar
      · exact h0
    · rcases Nat.lt_or_ge (i2 + 1) g.layout.length with h0 | h0
      · exact h0
      · have : i2 + 1 = g.layout.length := by omega
        exact absurd (hperim i2 hi2R j2 hj2C (Or.inr (Or.inl this))) hstar
    · rcases Nat.eq_zero_or_pos j2 with h0 | h0
      · exact absurd (hperim i2 hi2R j2 hj2C (Or.inr (Or.inr (Or.inl h0)))) hstar
      · exact h0
    · rcases Nat.lt_or_ge (j2 + 1) (ncols g) with h0 | h0
      · exact h0
      · have : j2 + 1 = ncols g := by omega
        exact absurd (hperim i2 hi2R j2 hj2C (Or.inr (Or.inr (Or.inr this)))) hstar

/-- The only failures of the path-walking loop are the key and recursion
errors, never an index error. -/
theorem walkPath_error_msgs (prev : Prev) :
    ∀ (fuel : Nat) (c : Cell) (e : String), walkPath prev fuel c = .error e →
      e = "RecursionError: predecessor chain too long" ∨
      e = "KeyError: missing predecessor" := by
  intro fuel
  induction fuel with
  | zero =>
    intro c e h
    unfold walkPath at h
    exact Or.inl (Except.error.inj h).symm
  | succ fuel ih =>
    intro c e h
    unfold walkPath at h
    split at h
    · exact Or.inr (Except.error.inj h).symm
    · exact absurd h (by simp)
    · rename_i p hp
      split at h
      · rename_i e2 he2
        exact (Except.error.inj h) ▸ ih p e2 he2
      · exact absurd h (by simp)

/-- `get_path` never fails with the index error. -/
theorem get_path_ne_idx (g : Grid) (prev : Prev) (e : String)
    (h : get_path g prev = .error e) : e ≠ idxMsg := by
  unfold get_path at h
  split at h
  · intro hx
    subst hx
    exact absurd (Except.error.inj h).symm (by decide)
  · split at h
    · rename_i e2 he2
      have := walkPath_error_msgs prev _ _ _ he2
      have he : e2 = e := Except.error.inj h
      subst he
      rcases this with h1 | h1 <;> (subst h1; decide)
    · exact absurd h (by simp)

section SafetyLemmas

variable {σ : Type} (g : Grid) (popC : σ → Option (Cell × σ))
  (pushC : σ → Cell → Cell → Except String σ) (CInvG : σ → Prop)

/-- On an enclosed rectangular grid with single-step offsets, expanding a
strictly interior cell never reads outside the layout, and every pushed
neighbour is again strictly interior. -/
theorem expand_safe
    (hencl : Enclosed g) (hoff : UnitOffsets g)
    (hpushG : ∀ s c n s', CInvG s → GoodCell g n → pushC s c n = .ok s' → CInvG s')
    (hpushNoIdx : ∀ s c n, pushC s c n ≠ .error idxMsg)
    (current : Cell) (hcur : GoodCell g current) :
    ∀ (dirs : List Nat) (s : σ) (prev : Prev) (added : Nat),
      CInvG s →
      expand g pushC current dirs s prev added ≠ .error idxMsg ∧
      (∀ s2 prev2 added2,
        expand g pushC current dirs s prev added = .ok (s2, prev2, added2) →
        CInvG s2) := by
  intro dirs
  induction dirs with
  | nil =>
    intro s prev added hc
    refine ⟨by simp [expand], fun s2 prev2 added2 h => ?_⟩
    unfold expand at h
    simp only [Except.ok.injEq, Prod.mk.injEq] at h
    obtain ⟨h1, -, -⟩ := h
    exact h1 ▸ hc
  | cons d rest ih =>
    intro s prev added hc
    have hunit : (g.offset.getD d (0, 0)).1.natAbs ≤ 1 ∧
        (g.offset.getD d (0, 0)).2.natAbs ≤ 1 := by
      by_cases hd : d < g.offset.length
      · rw [List.getD_eq_getElem g.offset (0, 0) hd]
        exact hoff _ (List.getElem_mem hd)
      · rw [List.getD_eq_default _ _ (le_of_not_lt hd)]
        exact ⟨by simp, by simp⟩
    obtain ⟨ch, hch, hgood⟩ := neighbour_safe g hencl current hcur
      (g.offset.getD d (0, 0)).1 (g.offset.getD d (0, 0)).2 hunit.1 hunit.2
    constructor
    · intro h
      unfold expand at h
      simp only [] at h
      split at h
      · rename_i hnone
        rw [hch] at hnone
        exact absurd hnone (by simp)
      · rename_i ch2 hch2
        rw [hch] at hch2
        have hcheq : ch2 = ch := (Option.some.inj hch2).symm
        subst hcheq
        split at h
        · rename_i hcond
          split at h
          · rename_i e hpu
            have he : e = idxMsg := Except.error.inj h
            exact hpushNoIdx _ _ _ (he ▸ hpu)
          · rename_i s' hpu
            exact (ih _ _ _ (hpushG _ _ _ _ hc (hgood hcond.2.1) hpu)).1 h
        · exact (ih _ _ _ hc).1 h
    · intro s2 prev2 added2 h
      unfold expand at h
      simp only [] at h
      split at h
      · exact absurd h (by simp)
      · rename_i ch2 hch2
        rw [hch] at hch2
        have hcheq : ch2 = ch := (Option.some.inj hch2).symm
        subst hcheq
        split at h
        · rename_i hcond
          split at h
          · exact absurd h (by simp)
          · rename_i s' hpu
            exact (ih _ _ _ (hpushG _ _ _ _ hc (hgood hcond.2.1) hpu)).2 _ _ _ h
        · exact (ih _ _ _ hc).2 _ _ _ h

/-- On an enclosed rectangular grid with single-step offsets, the search
loop can never die with the index error. -/
theorem searchLoop_no_idx_fail
    (hencl : Enclosed g) (hoff : UnitOffsets g)
    (hpopG : ∀ s c s', CInvG s → popC s = some (c, s') → GoodCell g c ∧ CInvG s')
    (hpushG : ∀ s c n s', CInvG s → GoodCell g n → pushC s c n = .ok s' → CInvG s')
    (hpushNoIdx : ∀ s c n, pushC s c n ≠ .error idxMsg) :
    ∀ (fuel : Nat) (s : σ) (prev : Prev) (visited added : Nat),
      CInvG s →
      searchLoop g popC pushC fuel s prev visited added ≠ .fail idxMsg := by
  intro fuel
  induction fuel with
  | zero => intro s prev visited added hc; simp [searchLoop]
  | succ fuel ih =>
    intro s prev visited added hc
    unfold searchLoop
    split
    · simp
    · rename_i current s1 heq
      obtain ⟨hgc, hc1⟩ := hpopG _ _ _ hc heq
      split
      · split
        · rename_i e he
          intro hx
          have : e = idxMsg := SR.fail.inj hx
          exact get_path_ne_idx g _ _ he this
        · simp
      · split
        · rename_i e he
          intro hx
          have hei : e = idxMsg := SR.fail.inj hx
          exact (expand_safe g pushC CInvG hencl hoff hpushG hpushNoIdx
            current hgc _ _ _ _ hc1).1 (hei ▸ he)
        · rename_i out s2 prev2 added2 heq2
          exact ih s2 prev2 (visited + 1) added2
            ((expand_safe g pushC CInvG hencl hoff hpushG hpushNoIdx
              current hgc _ _ _ _ hc1).2 _ _ _ heq2)

end SafetyLemmas

/-- A successful Python read returns a member of the list. -/
theorem pyGet_mem {α : Type} (l : List α) (i : Int) (x : α)
    (h : pyGet l i = some x) : x ∈ l := by
  unfold pyGet at h
  rcases hidx : pyIdx l.length i with _ | n
  · rw [hidx] at h; simp at h
  · rw [hidx, Option.some_bind] at h
    exact List.getElem?_mem h

/-- Boundary positions are non-negative. -/
theorem starsOf_nonneg (row : List Char) (x : Int) (hx : x ∈ starsOf row) :
    0 ≤ x := by
  unfold starsOf at hx
  rcases List.mem_map.mp hx with ⟨p, -, rfl⟩
  exact Int.natCast_nonneg _

/-- On a loaded, enclosed rectangular grid, a cell that `is_valid` accepts
is strictly interior. -/
theorem is_valid_good (g : Grid) (hb : g.bound = g.layout.map starsOf)
    (hencl : Enclosed g) (r c : Int) (hv : is_valid g r c = .ok true) :
    GoodCell g (r, c) := by
  obtain ⟨⟨hr0, hrlen⟩, ⟨k, mx, mn, hk, hmx, hmn, hc1, hc2⟩, hclen, -,
    ⟨ch, hch, hstar⟩⟩ := (is_valid_true_iff g r c).mp hv
  have hblen : g.bound.length = g.layout.length := by rw [hb]; simp
  have hc0 : 0 ≤ c := by
    have hkmem : k ∈ g.bound := pyGet_mem _ _ _ hk
    rw [hb] at hkmem
    rcases List.mem_map.mp hkmem with ⟨row, -, rfl⟩
    have hmnk : mn ∈ starsOf row := List.min?_mem (fun a b => min_choice a b) hmn
    have := starsOf_nonneg row mn hmnk
    omega
  obtain ⟨lrow, hlrow, hcin⟩ : ∃ lrow, pyGet g.layout r = some lrow ∧
      pyGet lrow c = some ch := by
    unfold pyGet2 at hch
    rcases hrow : pyGet g.layout r with _ | lrow
    · rw [hrow] at hch; simp at hch
    · rw [hrow, Option.some_bind] at hch
      exact ⟨lrow, rfl, hch⟩
  have hlmem : lrow ∈ g.layout := pyGet_mem _ _ _ hlrow
  have hlen : lrow.length = ncols g := hencl.1 _ hlmem
  have hcb := pyGet_some_bounds _ _ _ hcin
  set i : Nat := r.toNat with hidef
  set j : Nat := c.toNat with hjdef
  have hri : r = (i : Int) := by omega
  have hrj : c = (j : Int) := by omega
  have hiR : i < g.layout.length := by omega
  have hjC : j < ncols g := by omega
  have hchD : ch = cellD g i j := by
    have := pyGet2_natCast g i j hencl.1 hiR hjC
    rw [← hri, ← hrj] at this
    rw [this] at hch
    exact (Option.some.inj hch).symm
  refine ⟨i, j, by rw [hri, hrj], by omega, ?_, ?_, ?_⟩
  · rcases Nat.lt_or_ge (i + 1) g.layout.length with h0 | h0
    · exact h0
    · have hip : i + 1 = g.layout.length := by omega
      exact absurd (hencl.2 i hiR j hjC (Or.inr (Or.inl hip))).symm
        (by rw [hchD] at hstar; exact fun hx => hstar hx.symm)
  · rcases Nat.eq_zero_or_pos j with h0 | h0
    · exact absurd (hencl.2 i hiR j hjC (Or.inr (Or.inr (Or.inl h0)))).symm
        (by rw [hchD] at hstar; exact fun hx => hstar hx.symm)
    · exact h0
  · rcases Nat.lt_or_ge (j + 1) (ncols g) with h0 | h0
    · exact h0
    · have hjp : j + 1 = ncols g := by omega
      exact absurd (hencl.2 i hiR j hjC (Or.inr (Or.inr (Or.inr hjp)))).symm
        (by rw [hchD] at hstar; exact fun hx => hstar hx.symm)

/-- In-range swaps only permute existing elements. -/
theorem swap1_subset {α : Type} [Inhabited α] (l : List α) (i j : Nat)
    (hi1 : 1 ≤ i) (hil : i ≤ l.length) (hj1 : 1 ≤ j) (hjl : j ≤ l.length) :
    ∀ x ∈ swap1 l i j, x ∈ l := by
  intro x hx
  unfold swap1 at hx
  rcases List.mem_or_eq_of_mem_set hx with hx2 | rfl
  · rcases List.mem_or_eq_of_mem_set hx2 with hx3 | rfl
    · exact hx3
    · unfold nth1
      rw [List.getD_eq_getElem l default (by omega)]
      exact List.getElem_mem _
  · unfold nth1
    rw [List.getD_eq_getElem l default (by omega)]
    exact List.getElem_mem _

/-- The sift-up loop only permutes existing elements. -/
theorem swap_up_go_subset {α : Type} [LinearOrder α] [Inhabited α] (t : Bool) :
    ∀ (fuel : Nat) (l : List α) (ic : Nat), ic ≤ l.length →
      ∀ x ∈ swap_up_go t fuel l ic, x ∈ l := by
  intro fuel
  induction fuel with
  | zero => intro l ic hle x hx; exact hx
  | succ fuel ih =>
    intro l ic hle x hx
    unfold swap_up_go at hx
    simp only [] at hx
    split at hx
    · rename_i hguard
      split at hx
      · have hx2 := ih (swap1 l (ic / 2) ic) (ic / 2)
          (by rw [swap1_length]; omega) x hx
        exact swap1_subset l (ic / 2) ic (by omega) (by omega) (by omega) hle x hx2
      · exact ih l (ic / 2) (by omega) x hx
    · exact hx

/-- The chosen child index stays inside the heap. -/
theorem find_min_max_bounds {α : Type} [LinearOrder α] [Inhabited α]
    (l : List α) (ip : Nat) (t : Bool) (h : 2 * ip ≤ l.length) :
    2 * ip ≤ find_min_max l ip t ∧ find_min_max l ip t ≤ l.length ∧
    find_min_max l ip t ≤ 2 * ip + 1 := by
  unfold find_min_max
  simp only []
  split
  · omega
  · split
    · omega
    · rename_i hright _
      omega

/-- The sift-down loop only permutes existing elements. -/
theorem swap_down_go_subset {α : Type} [LinearOrder α] [Inhabited α] (t : Bool) :
    ∀ (fuel : Nat) (l : List α) (ip : Nat), 1 ≤ ip →
      ∀ x ∈ swap_down_go t fuel l ip, x ∈ l := by
  intro fuel
  induction fuel with
  | zero => intro l ip hip x hx; exact hx
  | succ fuel ih =>
    intro l ip hip x hx
    unfold swap_down_go at hx
    simp only [] at hx
    split at hx
    · rename_i hguard
      obtain ⟨hb1, hb2, hb3⟩ := find_min_max_bounds l ip t hguard
      split at hx
      · have hx2 := ih (swap1 l ip (find_min_max l ip t)) (find_min_max l ip t)
          (by omega) x hx
        exact swap1_subset l ip (find_min_max l ip t)
          hip (by omega) (by omega) hb2 x hx2
      · exact ih l (find_min_max l ip t) (by omega) x hx
    · exact hx

/-- The binary-search insertion point is strictly beyond `left`. -/
theorem searchPos_gt_left {β : Type} [Inhabited β] (t : Bool)
    (items : List (P × β)) (pr : P) :
    ∀ (fuel left right : Nat), left < right →
      left < searchPos t items pr fuel left right := by
  intro fuel
  induction fuel with
  | zero => intro l r h; exact h
  | succ fuel ih =>
    intro l r h
    unfold searchPos
    split
    · rename_i hlr
      dsimp only
      split
      · have := ih ((l + r) / 2) r (by omega)
        omega
      · exact ih l ((l + r) / 2) (by omega)
    · exact h

/-- Inserting inside the left part of an append. -/
theorem insertIdx_append_of_le {α : Type} (x : α) :
    ∀ (k : Nat) (l r : List α), k ≤ l.length →
      (l ++ r).insertIdx k x = (l.insertIdx k x) ++ r := by
  intro k
  induction k with
  | zero => intro l r _; rfl
  | succ k ih =>
    intro l r hk
    rcases l with _ | ⟨a, t⟩
    · simp at hk
    · simp only [List.cons_append, List.insertIdx_succ_cons]
      rw [ih t r (by simpa using hk)]

/-- Pushing keeps the bracket shape of the priority queue, only adding the
new pair somewhere among the real entries. -/
theorem pq_put_bracket (q : PriorityQueue Cell) (mid : List (P × Cell))
    (pr : Int) (n : Cell)
    (hitems : q.items = ((⊥ : P), (default : Cell)) :: mid ++ [(Ppinf, default)])
    (hsize : q.size = mid.length) :
    ∃ mid2, (q.put pr n).items =
        ((⊥ : P), (default : Cell)) :: mid2 ++ [(Ppinf, default)] ∧
      (q.put pr n).size = mid2.length ∧
      ∀ e ∈ mid2, e ∈ mid ∨ e = (Pint pr, n) := by
  have hput_items : (q.put pr n).items = q.items.insertIdx
      (searchPos q.queue_type q.items (Pint pr) (q.size + 1) 0 (q.size + 1))
      (Pint pr, n) := rfl
  have hput_size : (q.put pr n).size = q.size + 1 := rfl
  have h1 : 0 < searchPos q.queue_type q.items (Pint pr) (q.size + 1) 0 (q.size + 1) :=
    searchPos_gt_left _ _ _ _ _ _ (by omega)
  have h2 : searchPos q.queue_type q.items (Pint pr) (q.size + 1) 0 (q.size + 1)
      ≤ q.size + 1 := searchPos_le_right _ _ _ _ _ _
  obtain ⟨k, hkeq⟩ : ∃ k, searchPos q.queue_type q.items (Pint pr) (q.size + 1)
      0 (q.size + 1) = k + 1 :=
    ⟨searchPos q.queue_type q.items (Pint pr) (q.size + 1) 0 (q.size + 1) - 1,
      by omega⟩
  have hk : k ≤ mid.length := by omega
  refine ⟨mid.insertIdx k (Pint pr, n), ?_, ?_, ?_⟩
  · rw [hput_items, hkeq, hitems]
    have hstep : List.insertIdx (k + 1) (Pint pr, n)
        (((⊥ : P), (default : Cell)) :: mid ++ [(Ppinf, default)]) =
        ((⊥ : P), (default : Cell)) ::
          List.insertIdx k (Pint pr, n) (mid ++ [(Ppinf, default)]) := rfl
    rw [hstep, insertIdx_append_of_le _ k mid _ hk]
    rfl
  · rw [hput_size, List.length_insertIdx _ _ hk]
    omega
  · intro e he
    rcases (List.mem_insertIdx hk).mp he with he2 | he2
    · exact Or.inr he2
    · exact Or.inl he2

/-- Popping the stack yields an interior cell and keeps the invariant. -/
theorem stack_popG (g : Grid) (st : Stack Cell) (c : Cell) (st' : Stack Cell)
    (hc : AllGoodS g st) (h : st.pop = some (c, st')) :
    GoodCell g c ∧ AllGoodS g st' := by
  unfold Stack.pop at h
  split_ifs at h with h0
  split at h
  · simp at h
  · rename_i x hlast
    simp only [Option.some.injEq, Prod.mk.injEq] at h
    obtain ⟨rfl, rfl⟩ := h
    constructor
    · exact hc x (List.mem_of_mem_getLast? hlast)
    · intro y hy
      exact hc y (List.dropLast_subset _ hy)

/-- Popping the queue yields an interior cell and keeps the invariant. -/
theorem queue_popG (g : Grid) (st : Queue Cell) (c : Cell) (st' : Queue Cell)
    (hc : AllGoodQ g st) (h : st.dequeue = some (c, st')) :
    GoodCell g c ∧ AllGoodQ g st' := by
  unfold Queue.dequeue at h
  split_ifs at h with h0
  split at h
  · simp at h
  · rename_i x hhead
    simp only [Option.some.injEq, Prod.mk.injEq] at h
    obtain ⟨rfl, rfl⟩ := h
    constructor
    · exact hc x (List.mem_of_mem_head? hhead)
    · intro y hy
      exact hc y (List.tail_subset _ hy)

/-- Popping the priority queue yields an interior cell and keeps the
bracket invariant. -/
theorem astar_popG (g : Grid) (s : PriorityQueue Cell × GV) (c : Cell)
    (s' : PriorityQueue Cell × GV)
    (hc : PQBracket g s) (h : astarPop s = some (c, s')) :
    GoodCell g c ∧ PQBracket g s' := by
  obtain ⟨mid, hitems, hsize, hgood⟩ := hc
  unfold astarPop at h
  rcases hg : s.1.get with _ | pr
  · rw [hg] at h; simp at h
  · rw [hg] at h
    simp only [Option.some.injEq, Prod.mk.injEq] at h
    obtain ⟨hcq, rfl⟩ := h
    unfold PriorityQueue.get at hg
    split_ifs at hg with h0
    split at hg
    · simp at hg
    · rename_i e hget
      simp only [Option.some.injEq] at hg
      subst hg
      rcases mid with _ | ⟨e0, mid'⟩
      · exact absurd hsize (by simpa using h0)
      · have hget2 : s.1.items[1]? = some e0 := by
          rw [hitems]; simp
        rw [hget2] at hget
        have he : e = e0 := (Option.some.inj hget).symm
        constructor
        · rw [← hcq]
          dsimp only
          rw [he]
          exact hgood e0 (by simp)
        · refine ⟨mid', ?_, ?_, ?_⟩
          · show s.1.items.eraseIdx 1 = _
            rw [hitems]
            simp
          · show s.1.size - 1 = mid'.length
            rw [hsize]
            simp
          · intro e2 he2
            exact hgood e2 (by simp [he2])

/-- Pushing keeps the priority-queue bracket invariant when the pushed cell
is interior. -/
theorem astar_pushG (g : Grid) (s : PriorityQueue Cell × GV) (c n : Cell)
    (s' : PriorityQueue Cell × GV)
    (hc : PQBracket g s) (hgn : GoodCell g n) (h : astarPush g s c n = .ok s') :
    PQBracket g s' := by
  obtain ⟨mid, hitems, hsize, hgood⟩ := hc
  unfold astarPush at h
  split at h
  · simp at h
  · split at h
    · simp at h
    · simp only [Except.ok.injEq] at h
      subst h
      obtain ⟨mid2, h1, h2, h3⟩ := pq_put_bracket s.1 mid _ n hitems hsize
      refine ⟨mid2, h1, h2, ?_⟩
      intro e he
      rcases h3 e he with he2 | he2
      · exact hgood e he2
      · rw [he2]
        exact hgn

/-- `astarPush` never fails with the index error. -/
theorem astarPush_ne_idx (g : Grid) (s : PriorityQueue Cell × GV) (c n : Cell) :
    astarPush g s c n ≠ .error idxMsg := by
  unfold astarPush
  split
  · intro h; exact absurd (Except.error.inj h) (by decide)
  · split
    · intro h; exact absurd (Except.error.inj h) (by decide)
    · intro h; exact Except.noConfusion h

/-- Popping the binary heap yields an interior cell and keeps the
invariant. -/
theorem dijkstra_popG (g : Grid) (s : BinaryHeap DItem × GV) (c : Cell)
    (s' : BinaryHeap DItem × GV)
    (hc : HeapGood g s) (h : dijkstraPop s = some (c, s')) :
    GoodCell g c ∧ HeapGood g s' := by
  obtain ⟨hlen, hgood⟩ := hc
  unfold dijkstraPop at h
  rcases hg : s.1.get with _ | pr
  · rw [hg] at h; simp at h
  · rw [hg] at h
    simp only [Option.some.injEq, Prod.mk.injEq] at h
    obtain ⟨hcq, rfl⟩ := h
    unfold BinaryHeap.get at hg
    split_ifs at hg with h0
    split at hg
    · rename_i root last hhead hlast
      simp only [Option.some.injEq] at hg
      subst hg
      constructor
      · rw [← hcq]
        exact hgood root (List.mem_of_mem_head? hhead)
      · constructor
        · show (swap_down _ _ _).length = s.1.size - 1
          unfold swap_down
          rw [swap_down_go_length]
          simp only [List.length_dropLast, List.length_set]
          omega
        · intro it hit
          have h2 : it ∈ (s.1.items.set 0 last).dropLast := by
            have := swap_down_go_subset s.1.heap_type
              ((s.1.items.set 0 last).dropLast.length + 1)
              ((s.1.items.set 0 last).dropLast) 1 (le_refl 1) it hit
            exact this
          have h3 : it ∈ s.1.items.set 0 last := List.dropLast_subset _ h2
          rcases List.mem_or_eq_of_mem_set h3 with h4 | h5
          · exact hgood it h4
          · rw [h5]
            exact hgood last (List.mem_of_mem_getLast? hlast)
    · simp at hg

/-- Pushing keeps the heap invariant when the pushed cell is interior. -/
theorem dijkstra_pushG (g : Grid) (s : BinaryHeap DItem × GV) (c n : Cell)
    (s' : BinaryHeap DItem × GV)
    (hc : HeapGood g s) (hgn : GoodCell g n) (h : dijkstraPush s c n = .ok s') :
    HeapGood g s' := by
  obtain ⟨hlen, hgood⟩ := hc
  unfold dijkstraPush at h
  split at h
  · simp at h
  · rename_i gc hgc
    simp only [Except.ok.injEq] at h
    subst h
    constructor
    · show (s.1.put (toLex (gc + 1, toLex n))).items.length = s.1.size + 1
      obtain ⟨hpl, hps⟩ := heap_put_spec s.1 (toLex (gc + 1, toLex n)) hlen
      omega
    · intro it hit
      have hit2 : it ∈ (s.1.put (toLex (gc + 1, toLex n))).items := hit
      have hputq : (s.1.put (toLex (gc + 1, toLex n))).items
          = swap_up s.1.heap_type (s.1.items ++ [toLex (gc + 1, toLex n)])
              (s.1.size + 1) := rfl
      rw [hputq] at hit2
      unfold swap_up at hit2
      have hsub := swap_up_go_subset s.1.heap_type (s.1.size + 1)
        (s.1.items ++ [toLex (gc + 1, toLex n)]) (s.1.size + 1)
        (by simp [hlen]) it hit2
      rcases List.mem_append.mp hsub with h4 | h4
      · exact hgood it h4
      · have h5 : it = toLex (gc + 1, toLex n) := by simpa using h4
        rw [h5]
        exact hgn

/-- `dijkstraPush` never fails with the index error. -/
theorem dijkstraPush_ne_idx (s : BinaryHeap DItem × GV) (c n : Cell) :
    dijkstraPush s c n ≠ .error idxMsg := by
  unfold dijkstraPush
  split
  · intro h; exact absurd (Except.error.inj h) (by decide)
  · intro h; exact Except.noConfusion h

/-- Claim C2 (corrected, amended claim): the neighbour lookup
`layout[row_neigh][col_neigh]` is performed without any bounds check, so it
CAN read outside the layout (`dfs_reads_outside_layout`); it stays inside the
layout whenever the grid is rectangular with its whole perimeter made of
boundary cells, the offsets are single steps, and the start is valid — then
none of the four searches can die with the `IndexError`. -/
theorem searches_inbounds_on_enclosed (g : Grid) (s0 : Cell)
    (hb : g.bound = g.layout.map starsOf)
    (hencl : Enclosed g) (hoff : UnitOffsets g)
    (hst : g.start = some s0) (hv : is_valid g s0.1 s0.2 = .ok true) :
    dfs g ≠ .fail idxMsg ∧ bfs g ≠ .fail idxMsg ∧
    A_star g ≠ .fail idxMsg ∧ Dijkstra g ≠ .fail idxMsg := by
  have hgood : GoodCell g s0 := by
    have h2 := is_valid_good g hb hencl s0.1 s0.2 hv
    simpa using h2
  refine ⟨?_, ?_, ?_, ?_⟩
  · unfold dfs
    rw [hst]
    exact searchLoop_no_idx_fail g _ _ (AllGoodS g) hencl hoff
      (fun s c s' hcv hp => stack_popG g s c s' hcv hp)
      (fun s c n s' hcv hgn hp => by
        have hs : s.push n = s' := by simpa using hp
        subst hs
        intro y hy
        rcases List.mem_append.mp hy with h4 | h4
        · exact hcv y h4
        · have : y = n := by simpa using h4
          exact this ▸ hgn)
      (fun s c n h => Except.noConfusion h)
      (searchFuel g s0) (Stack.initEmpty.push s0) [(s0, none)] 0 1
      (fun c hcmem => by
        have : c = s0 := by simpa [Stack.initEmpty, Stack.push] using hcmem
        exact this ▸ hgood)
  · unfold bfs
    rw [hst]
    exact searchLoop_no_idx_fail g _ _ (AllGoodQ g) hencl hoff
      (fun s c s' hcv hp => queue_popG g s c s' hcv hp)
      (fun s c n s' hcv hgn hp => by
        have hs : s.enqueue n = s' := by simpa using hp
        subst hs
        intro y hy
        rcases List.mem_append.mp hy with h4 | h4
        · exact hcv y h4
        · have : y = n := by simpa using h4
          exact this ▸ hgn)
      (fun s c n h => Except.noConfusion h)
      (searchFuel g s0) (Queue.initEmpty.enqueue s0) [(s0, none)] 0 1
      (fun c hcmem => by
        have : c = s0 := by simpa [Queue.initEmpty, Queue.enqueue] using hcmem
        exact this ▸ hgood)
  · unfold A_star
    split
    · rename_i s1 goal hstart hgoal
      have hseq : s1 = s0 := by
        rw [hst] at hstart
        exact (Option.some.inj hstart).symm
      subst hseq
      obtain ⟨mid2, h1, h2, h3⟩ := pq_put_bracket (PriorityQueue.init Cell false)
        [] (0 + heuristic goal s1) s1 rfl rfl
      exact searchLoop_no_idx_fail g astarPop (astarPush g) (PQBracket g) hencl hoff
        (fun s c s' hcv hp => astar_popG g s c s' hcv hp)
        (fun s c n s' hcv hgn hp => astar_pushG g s c n s' hcv hgn hp)
        (fun s c n => astarPush_ne_idx g s c n)
        (searchFuel g s1) _ [(s1, none)] 0 1
        ⟨mid2, h1, h2, fun e he => by
          rcases h3 e he with he2 | he2
          · exact absurd he2 (List.not_mem_nil e)
          · rw [he2]
            exact hgood⟩
    · rename_i hcatch
      intro h
      exact absurd (SR.fail.inj h) (by decide)
  · unfold Dijkstra
    rw [hst]
    have hput : ((BinaryHeap.initEmpty DItem false).put (toLex (0, toLex s0))).items
        = swap_up false ([] ++ [toLex (0, toLex s0)]) 1 := rfl
    exact searchLoop_no_idx_fail g dijkstraPop dijkstraPush (HeapGood g) hencl hoff
      (fun s c s' hcv hp => dijkstra_popG g s c s' hcv hp)
      (fun s c n s' hcv hgn hp => dijkstra_pushG g s c n s' hcv hgn hp)
      (fun s c n => dijkstraPush_ne_idx s c n)
      (searchFuel g s0) _ [(s0, none)] 0 1
      ⟨rfl, fun it hit => by
        have hit2 : it ∈
            ((BinaryHeap.initEmpty DItem false).put (toLex (0, toLex s0))).items := hit
        rw [hput] at hit2
        unfold swap_up at hit2
        have h4 := swap_up_go_subset false 1 ([] ++ [toLex (0, toLex s0)]) 1
          (by simp) it hit2
        have h5 : it = toLex (0, toLex s0) := by simpa using h4
        rw [h5]
        exact hgood⟩

/-- Witness for `searches_inbounds_on_enclosed`: the fully enclosed 5×5 open
grid with 4-way motion. -/
theorem searches_inbounds_on_enclosed_witness :
    dfs gridOpen5 ≠ .fail idxMsg ∧ bfs gridOpen5 ≠ .fail idxMsg ∧
    A_star gridOpen5 ≠ .fail idxMsg ∧ Dijkstra gridOpen5 ≠ .fail idxMsg :=
  searches_inbounds_on_enclosed gridOpen5 (1, 1) (by decide)
    (by constructor
        · decide
        · decide)
    (by unfold UnitOffsets; decide) rfl (by decide)

/-! ## Claim C5: the binary heap order and size invariants -/

/-- `hless` is irreflexive. -/
theorem hless_irrefl {α : Type} [LinearOrder α] (t : Bool) (a : α) :
    ¬ hless t a a := by
  cases t
  · exact lt_irrefl a
  · exact lt_irrefl a

/-- `hless` is asymmetric. -/
theorem hless_asymm {α : Type} [LinearOrder α] {t : Bool} {a b : α}
    (h : hless t a b) : ¬ hless t b a := by
  cases t
  · exact lt_asymm h
  · exact lt_asymm h

/-- Being no more extreme than is transitive. -/
theorem not_hless_trans {α : Type} [LinearOrder α] {t : Bool} {a b c : α}
    (h1 : ¬ hless t b a) (h2 : ¬ hless t c b) : ¬ hless t c a := by
  cases t
  · exact fun hca => absurd (lt_of_lt_of_le hca (not_lt.mp h1)) h2
  · exact fun hca => absurd (lt_of_lt_of_le hca (not_lt.mp h2)) h1

/-- Whatever is no more extreme than `a` is no more extreme than anything
strictly more extreme than `a`. -/
theorem hless_cross {α : Type} [LinearOrder α] {t : Bool} {a b c : α}
    (h1 : hless t b a) (h2 : ¬ hless t c a) : ¬ hless t c b := by
  cases t
  · exact fun hcb => absurd (lt_trans hcb h1) h2
  · exact fun hbc => absurd (lt_trans h1 hbc) h2

/-- `nth1` as a checked list access. -/
theorem nth1_eq_getElem {α : Type} [Inhabited α] (l : List α) (p : Nat)
    (h : p - 1 < l.length) : nth1 l p = l[p - 1] := by
  unfold nth1
  exact List.getD_eq_getElem l default h

/-- Writing at the 0-based slot of 1-based position `p` sets `nth1 _ p`. -/
theorem nth1_set_self {α : Type} [Inhabited α] (l : List α) (m : Nat) (x : α)
    (p : Nat) (hm : m < l.length) (hp : p - 1 = m) :
    nth1 (l.set m x) p = x := by
  unfold nth1
  rw [List.getD_eq_getElem?_getD, hp, List.getElem?_set]
  simp [hm]

/-- Writing at another slot leaves `nth1 _ p` unchanged. -/
theorem nth1_set_other {α : Type} [Inhabited α] (l : List α) (m : Nat) (x : α)
    (p : Nat) (hp : p - 1 ≠ m) :
    nth1 (l.set m x) p = nth1 l p := by
  unfold nth1
  rw [List.getD_eq_getElem?_getD, List.getD_eq_getElem?_getD, List.getElem?_set]
  simp [Ne.symm hp]

/-- Reading the smaller position of a swap gives the other old value. -/
theorem nth1_swap1_left {α : Type} [Inhabited α] (l : List α) (i j : Nat)
    (h1 : 1 ≤ i) (h2 : i < j) (h3 : j ≤ l.length) :
    nth1 (swap1 l i j) i = nth1 l j := by
  show nth1 ((l.set (i - 1) (nth1 l j)).set (j - 1) (nth1 l i)) i = nth1 l j
  rw [nth1_set_other _ _ _ _ (by omega), nth1_set_self _ _ _ _ (by omega) rfl]

/-- Reading the larger position of a swap gives the other old value. -/
theorem nth1_swap1_right {α : Type} [Inhabited α] (l : List α) (i j : Nat)
    (h1 : 1 ≤ i) (h2 : i < j) (h3 : j ≤ l.length) :
    nth1 (swap1 l i j) j = nth1 l i := by
  show nth1 ((l.set (i - 1) (nth1 l j)).set (j - 1) (nth1 l i)) j = nth1 l i
  rw [nth1_set_self _ _ _ _ (by simp; omega) rfl]

/-- Reading any other position of a swap is unchanged. -/
theorem nth1_swap1_other {α : Type} [Inhabited α] (l : List α) (i j p : Nat)
    (hpi : p - 1 ≠ i - 1) (hpj : p - 1 ≠ j - 1) :
    nth1 (swap1 l i j) p = nth1 l p := by
  show nth1 ((l.set (i - 1) (nth1 l j)).set (j - 1) (nth1 l i)) p = nth1 l p
  rw [nth1_set_other _ _ _ _ hpj, nth1_set_other _ _ _ _ hpi]

/-- `nth1` only looks at the left part of an append. -/
theorem nth1_append_left {α : Type} [Inhabited α] (l r : List α) (p : Nat)
    (h1 : 1 ≤ p) (h2 : p ≤ l.length) : nth1 (l ++ r) p = nth1 l p := by
  unfold nth1
  rw [List.getD_eq_getElem?_getD, List.getD_eq_getElem?_getD,
    List.getElem?_append_left (by omega)]

/-- `nth1` away from both ends is unchanged by the root-replacement step of
`BinaryHeap.get`. -/
theorem nth1_shrink {α : Type} [Inhabited α] (l : List α) (x : α) (q : Nat)
    (h2 : 2 ≤ q) (hq : q ≤ l.length - 1) :
    nth1 ((l.set 0 x).dropLast) q = nth1 l q := by
  have hlen : ((l.set 0 x).dropLast).length = l.length - 1 := by simp
  have hb : q - 1 < ((l.set 0 x).dropLast).length := by omega
  have hb2 : q - 1 < l.length := by omega
  unfold nth1
  rw [List.getD_eq_getElem _ default hb, List.getD_eq_getElem _ default hb2]
  rw [List.getElem_dropLast]
  exact List.getElem_set_ne (by omega) (by simpa using hb2)

/-- `find_min_max`, written out. -/
theorem find_min_max_eq {α : Type} [LinearOrder α] [Inhabited α]
    (l : List α) (ip : Nat) (t : Bool) :
    find_min_max l ip t =
      if 2 * ip + 1 > l.length then 2 * ip
      else if hless t (nth1 l (2 * ip)) (nth1 l (2 * ip + 1)) then 2 * ip
      else 2 * ip + 1 := rfl

/-- No child of `ip` inside the heap is strictly more extreme than the
child picked by `find_min_max`. -/
theorem find_min_max_spec {α : Type} [LinearOrder α] [Inhabited α]
    (l : List α) (ip : Nat) (t : Bool) (hip : 1 ≤ ip) :
    ∀ s, s / 2 = ip → s ≤ l.length →
      ¬ hless t (nth1 l s) (nth1 l (find_min_max l ip t)) := by
  intro s hs hsl
  rw [find_min_max_eq]
  split
  · rename_i hr
    have hseq : s = 2 * ip := by omega
    rw [hseq]
    exact hless_irrefl t _
  · rename_i hr
    split
    · rename_i hlt
      have hseq : s = 2 * ip ∨ s = 2 * ip + 1 := by omega
      rcases hseq with hseq | hseq <;> rw [hseq]
      · exact hless_irrefl t _
      · exact hless_asymm hlt
    · rename_i hge
      have hseq : s = 2 * ip ∨ s = 2 * ip + 1 := by omega
      rcases hseq with hseq | hseq <;> rw [hseq]
      · exact hge
      · exact hless_irrefl t _

/-- The sift-up loop restores the heap order: if every pair except the one
at the moving position holds, and the children of the moving position are
already covered by its parent, the result is heap-ordered. -/
theorem swap_up_go_inv {α : Type} [LinearOrder α] [Inhabited α] (t : Bool) :
    ∀ (fuel : Nat) (l : List α) (ic : Nat), 1 ≤ ic → ic ≤ fuel → ic ≤ l.length →
      (∀ p, 2 ≤ p → p ≤ l.length → p ≠ ic →
        ¬ hless t (nth1 l p) (nth1 l (p / 2))) →
      (∀ p, 2 ≤ p → p ≤ l.length → p / 2 = ic → 2 ≤ ic →
        ¬ hless t (nth1 l p) (nth1 l (ic / 2))) →
      HeapInv t (swap_up_go t fuel l ic) := by
  intro fuel
  induction fuel with
  | zero => intro l ic h1 h2 _ _ _; omega
  | succ fuel ih =>
    intro l ic h1 h2 hlen A B
    unfold swap_up_go
    split
    · rename_i hgt
      show HeapInv t (swap_up_go t fuel
        (if hless t (nth1 l ic) (nth1 l (ic / 2)) then swap1 l (ic / 2) ic else l)
        (ic / 2))
      by_cases hsw : hless t (nth1 l ic) (nth1 l (ic / 2))
      · rw [if_pos hsw]
        apply ih (swap1 l (ic / 2) ic) (ic / 2) (by omega) (by omega)
          (by rw [swap1_length]; omega)
        · intro p hp2 hpl hpne
          rw [swap1_length] at hpl
          by_cases hpic : p = ic
          · rw [hpic]
            have hicp : ic / 2 = ic / 2 := rfl
            rw [nth1_swap1_right l (ic / 2) ic (by omega) (by omega) (by omega),
              nth1_swap1_left l (ic / 2) ic (by omega) (by omega) (by omega)]
            exact hless_asymm hsw
          · by_cases hpip : p / 2 = ic / 2
            · rw [nth1_swap1_other l (ic / 2) ic p (by omega) (by omega)]
              rw [hpip, nth1_swap1_left l (ic / 2) ic (by omega) (by omega) (by omega)]
              have hA := A p hp2 (by omega) hpic
              rw [hpip] at hA
              exact hless_cross hsw hA
            · by_cases hpic2 : p / 2 = ic
              · rw [nth1_swap1_other l (ic / 2) ic p (by omega) (by omega)]
                rw [hpic2, nth1_swap1_right l (ic / 2) ic (by omega) (by omega) (by omega)]
                exact B p hp2 (by omega) hpic2 (by omega)
              · rw [nth1_swap1_other l (ic / 2) ic p (by omega) (by omega),
                  nth1_swap1_other l (ic / 2) ic (p / 2) (by omega) (by omega)]
                exact A p hp2 (by omega) hpic
        · intro p hp2 hpl hppar hip2
          rw [swap1_length] at hpl
          rw [nth1_swap1_other l (ic / 2) ic (ic / 2 / 2) (by omega) (by omega)]
          by_cases hpic : p = ic
          · rw [hpic, nth1_swap1_right l (ic / 2) ic (by omega) (by omega) (by omega)]
            exact A (ic / 2) hip2 (by omega) (by omega)
          · rw [nth1_swap1_other l (ic / 2) ic p (by omega) (by omega)]
            have hA := A p hp2 (by omega) hpic
            rw [hppar] at hA
            exact not_hless_trans (A (ic / 2) hip2 (by omega) (by omega)) hA
      · rw [if_neg hsw]
        apply ih l (ic / 2) (by omega) (by omega) (by omega)
        · intro p hp2 hpl hpne
          by_cases hpic : p = ic
          · rw [hpic]
            exact hsw
          · exact A p hp2 hpl hpic
        · intro p hp2 hpl hppar hip2
          by_cases hpic : p = ic
          · rw [hpic]
            exact not_hless_trans (A (ic / 2) hip2 (by omega) (by omega)) hsw
          · have hA := A p hp2 hpl hpic
            rw [hppar] at hA
            exact not_hless_trans (A (ic / 2) hip2 (by omega) (by omega)) hA
    · rename_i hng
      unfold HeapInv
      intro p hp2 hpl
      exact A p hp2 hpl (by omega)

/-- `BinaryHeap.put` preserves the heap order. -/
theorem put_heapInv {α : Type} [LinearOrder α] [Inhabited α] (t : Bool)
    (h : BinaryHeap α) (x : α) (ht : h.heap_type = t)
    (hsync : h.items.length = h.size) (hinv : HeapInv t h.items) :
    HeapInv t (h.put x).items := by
  have hitems : (h.put x).items =
      swap_up_go h.heap_type (h.size + 1) (h.items ++ [x]) (h.size + 1) := rfl
  rw [hitems, ht]
  have hlen2 : (h.items ++ [x]).length = h.items.length + 1 := by simp
  apply swap_up_go_inv t (h.size + 1) (h.items ++ [x]) (h.size + 1) (by omega)
    (by omega) (by omega)
  · intro p hp2 hpl hpne
    rw [hlen2] at hpl
    rw [nth1_append_left _ _ _ (by omega) (by omega),
      nth1_append_left _ _ _ (by omega) (by omega)]
    exact hinv p hp2 (by omega)
  · intro p hp2 hpl hpar hic2
    rw [hlen2] at hpl
    omega

/-- The sift-down loop restores the heap order: if every pair whose parent
is not the hole holds, and the children of the hole are covered by the
hole's own parent, the result is heap-ordered. -/
theorem swap_down_go_inv {α : Type} [LinearOrder α] [Inhabited α] (t : Bool) :
    ∀ (fuel : Nat) (l : List α) (ip : Nat), 1 ≤ ip → l.length + 1 ≤ fuel + ip →
      (∀ p, 2 ≤ p → p ≤ l.length → p / 2 ≠ ip →
        ¬ hless t (nth1 l p) (nth1 l (p / 2))) →
      (∀ p, 2 ≤ p → p ≤ l.length → p / 2 = ip → 2 ≤ ip →
        ¬ hless t (nth1 l p) (nth1 l (ip / 2))) →
      HeapInv t (swap_down_go t fuel l ip) := by
  intro fuel
  induction fuel with
  | zero =>
    intro l ip h1 h2 A B
    unfold swap_down_go HeapInv
    intro p hp2 hpl
    exact A p hp2 hpl (by omega)
  | succ fuel ih =>
    intro l ip h1 h2 A B
    unfold swap_down_go
    split
    · rename_i hg
      show HeapInv t (swap_down_go t fuel
        (if hless t (nth1 l (find_min_max l ip t)) (nth1 l ip) then
          swap1 l ip (find_min_max l ip t) else l)
        (find_min_max l ip t))
      obtain ⟨hf1, hf3, hf2⟩ := find_min_max_bounds l ip t hg
      have hext := find_min_max_spec l ip t h1
      set ic := find_min_max l ip t with hic
      have hic2 : 2 ≤ ic := by omega
      have hicip : ip < ic := by omega
      have hicp : ic / 2 = ip := by omega
      by_cases hsw : hless t (nth1 l ic) (nth1 l ip)
      · rw [if_pos hsw]
        apply ih (swap1 l ip ic) ic (by omega) (by rw [swap1_length]; omega)
        · intro p hp2 hpl hpne
          rw [swap1_length] at hpl
          by_cases hpi : p = ic
          · rw [hpi, hicp]
            rw [nth1_swap1_right l ip ic (by omega) hicip (by omega),
              nth1_swap1_left l ip ic (by omega) hicip (by omega)]
            exact hless_asymm hsw
          · by_cases hppar : p / 2 = ip
            · rw [nth1_swap1_other l ip ic p (by omega) (by omega)]
              rw [hppar, nth1_swap1_left l ip ic (by omega) hicip (by omega)]
              exact hext p hppar (by omega)
            · by_cases hpp : p = ip
              · rw [hpp]
                rw [nth1_swap1_left l ip ic (by omega) hicip (by omega)]
                rw [nth1_swap1_other l ip ic (ip / 2) (by omega) (by omega)]
                exact B ic hic2 (by omega) hicp (by omega)
              · rw [nth1_swap1_other l ip ic p (by omega) (by omega),
                  nth1_swap1_other l ip ic (p / 2) (by omega) (by omega)]
                exact A p hp2 (by omega) hppar
        · intro p hp2 hpl hppar hicb
          rw [swap1_length] at hpl
          rw [hicp]
          rw [nth1_swap1_other l ip ic p (by omega) (by omega)]
          rw [nth1_swap1_left l ip ic (by omega) hicip (by omega)]
          have hA := A p hp2 (by omega) (by omega)
          rw [hppar] at hA
          exact hA
      · rw [if_neg hsw]
        apply ih l ic (by omega) (by omega)
        · intro p hp2 hpl hpne
          by_cases hppar : p / 2 = ip
          · by_cases hpi : p = ic
            · rw [hpi, hicp]
              exact hsw
            · rw [hppar]
              exact not_hless_trans hsw (hext p hppar (by omega))
          · exact A p hp2 hpl hppar
        · intro p hp2 hpl hppar hicb
          rw [hicp]
          have hA := A p hp2 hpl (by omega)
          rw [hppar] at hA
          exact not_hless_trans hsw hA
    · rename_i hg
      unfold HeapInv
      intro p hp2 hpl
      by_cases hppar : p / 2 = ip
      · omega
      · exact A p hp2 hpl hppar

/-- `BinaryHeap.get` preserves the heap order, pops exactly one item, and
succeeds only on a non-empty heap. -/
theorem get_heapInv {α : Type} [LinearOrder α] [Inhabited α] (t : Bool)
    (h : BinaryHeap α) (r : α) (h2 : BinaryHeap α)
    (ht : h.heap_type = t) (hsync : h.items.length = h.size)
    (hinv : HeapInv t h.items) (hg : h.get = some (r, h2)) :
    h2.heap_type = t ∧ h2.items.length = h2.size ∧ h2.size = h.size - 1 ∧
      HeapInv t h2.items ∧ 1 ≤ h.size := by
  unfold BinaryHeap.get at hg
  split at hg
  · exact absurd hg (by simp)
  · rename_i hsz
    split at hg
    · rename_i root last hhead hlast
      simp only [] at hg
      rw [Option.some.injEq, Prod.mk.injEq] at hg
      obtain ⟨hroot, hq2⟩ := hg
      have hlen1 : ((h.items.set 0 last).dropLast).length = h.items.length - 1 := by
        simp
      refine ⟨?_, ?_, ?_, ?_, by omega⟩
      · rw [← hq2, ht]
      · rw [← hq2]
        show (swap_down h.heap_type ((h.items.set 0 last).dropLast) 1).length
          = h.size - 1
        unfold swap_down
        rw [swap_down_go_length, hlen1, hsync]
      · rw [← hq2]
      · rw [← hq2]
        show HeapInv t (swap_down h.heap_type ((h.items.set 0 last).dropLast) 1)
        unfold swap_down
        rw [ht]
        apply swap_down_go_inv t _ _ 1 (by omega) (by omega)
        · intro p hp2 hpl hpne
          rw [hlen1] at hpl
          rw [nth1_shrink _ _ _ (by omega) (by omega),
            nth1_shrink _ _ _ (by omega) (by omega)]
          exact hinv p hp2 (by omega)
        · intro p hp2 hpl hppar hcon
          omega
    · simp at hg

/-- The run invariant holds along any heap operation sequence. -/
theorem heapRun_go {α : Type} [LinearOrder α] [Inhabited α] (t : Bool) :
    ∀ (ops : List (HOp α)) (st : BinaryHeap α × Nat) (n : Nat), HeapWF t n st →
      HeapWF t (n + countPuts ops) (ops.foldl heapStep st) := by
  intro ops
  induction ops with
  | nil =>
    intro st n hwf
    simpa [countPuts] using hwf
  | cons op rest ih =>
    intro st n hwf
    rw [List.foldl_cons]
    cases op with
    | put x =>
      have hc : countPuts (HOp.put x :: rest) = countPuts rest + 1 := by
        unfold countPuts
        simp [List.filter_cons]
      have hstep : HeapWF t (n + 1) (heapStep st (HOp.put x)) := by
        obtain ⟨hty, hsync, hinv, hacc⟩ := hwf
        obtain ⟨hl, hs⟩ := heap_put_spec st.1 x hsync
        refine ⟨hty, ?_, put_heapInv t st.1 x hty hsync hinv, ?_⟩
        · show (st.1.put x).items.length = (st.1.put x).size
          rw [hl, hs, hsync]
        · show (st.1.put x).size + st.2 = n + 1
          rw [hs]
          omega
      have hres := ih (heapStep st (HOp.put x)) (n + 1) hstep
      rw [hc]
      have hn : n + (countPuts rest + 1) = n + 1 + countPuts rest := by omega
      rw [hn]
      exact hres
    | get =>
      have hc : countPuts (HOp.get :: rest) = countPuts rest := by
        unfold countPuts
        simp [List.filter_cons]
      have hstep : HeapWF t n (heapStep st HOp.get) := by
        obtain ⟨hty, hsync, hinv, hacc⟩ := hwf
        show HeapWF t n
          (match st.1.get with | none => st | some (_, h2) => (h2, st.2 + 1))
        cases hg : st.1.get with
        | none => exact ⟨hty, hsync, hinv, hacc⟩
        | some pair =>
          obtain ⟨r, h2⟩ := pair
          obtain ⟨g1, g2, g3, g4, g5⟩ := get_heapInv t st.1 r h2 hty hsync hinv hg
          refine ⟨g1, g2, g4, ?_⟩
          show h2.size + (st.2 + 1) = n
          omega
      rw [hc]
      exact ih (heapStep st HOp.get) n hstep

/-- Any heap run from the empty heap is well formed. -/
theorem heapRun_wf {α : Type} [LinearOrder α] [Inhabited α] (t : Bool)
    (ops : List (HOp α)) : HeapWF t (countPuts ops) (heapRun t ops) := by
  have h0 : HeapWF t 0 ((BinaryHeap.initEmpty α t, 0) : BinaryHeap α × Nat) := by
    refine ⟨rfl, rfl, ?_, rfl⟩
    intro p hp2 hpl
    simp [BinaryHeap.initEmpty] at hpl
    omega
  have hres := heapRun_go t ops (BinaryHeap.initEmpty α t, 0) 0 h0
  simpa [heapRun] using hres

/-- In a heap-ordered list no position is strictly more extreme than the
root. -/
theorem heapInv_root {α : Type} [LinearOrder α] [Inhabited α] (t : Bool)
    (l : List α) (hinv : HeapInv t l) :
    ∀ p, 1 ≤ p → p ≤ l.length → ¬ hless t (nth1 l p) (nth1 l 1) := by
  intro p
  induction p using Nat.strong_induction_on with
  | _ p ih =>
    intro hp1 hpl
    by_cases hp : p = 1
    · rw [hp]
      exact hless_irrefl t _
    · exact not_hless_trans (ih (p / 2) (by omega) (by omega) (by omega))
        (hinv p (by omega) hpl)

/-- In a heap-ordered list no element is strictly more extreme than the
root. -/
theorem heapInv_mem {α : Type} [LinearOrder α] [Inhabited α] (t : Bool)
    (l : List α) (hinv : HeapInv t l) (x : α) (hx : x ∈ l) :
    ¬ hless t x (nth1 l 1) := by
  obtain ⟨i, hi, hxe⟩ := List.mem_iff_getElem.mp hx
  have hval : nth1 l (i + 1) = x := by
    show l.getD i default = x
    rw [List.getD_eq_getElem l default hi]
    exact hxe
  rw [← hval]
  exact heapInv_root t l hinv (i + 1) (by omega) (by omega)

/-- C5: over any sequence of `put`/`get` operations on a `BinaryHeap`, the
root returned by `peek` is the extreme element of everything stored (the
minimum for a min-heap, the maximum for a max-heap), and after `n` `put`
calls of which `k` `get` calls succeeded the size is `n - k`. -/
theorem heap_peek_extremal_size {α : Type} [LinearOrder α] [Inhabited α]
    (t : Bool) (ops : List (HOp α)) :
    (∀ r, (heapRun t ops).1.peek = some r →
      ∀ x ∈ (heapRun t ops).1.items, ¬ hless t x r) ∧
    (heapRun t ops).2 ≤ countPuts ops ∧
    (heapRun t ops).1.size = countPuts ops - (heapRun t ops).2 := by
  obtain ⟨hty, hsync, hinv, hacc⟩ := heapRun_wf t ops
  refine ⟨?_, by omega, by omega⟩
  intro r hr x hx
  unfold BinaryHeap.peek at hr
  split at hr
  · exact absurd hr (by simp)
  · have hr2 : nth1 (heapRun t ops).1.items 1 = r := by
      cases hitems : (heapRun t ops).1.items with
      | nil =>
        rw [hitems] at hr
        simp at hr
      | cons a tl =>
        rw [hitems] at hr
        simp at hr
        simpa [nth1] using hr
    rw [← hr2]
    exact heapInv_mem t _ hinv x hx

/-- Witness for C5 at a concrete run: pushing 5, 3, 4 into a min-heap and
popping once leaves size 2 and a root no larger than the stored 5. -/
theorem heap_peek_extremal_size_witness :
    ¬ hless false ((5 : Int)) 4 ∧
      (heapRun false [HOp.put ((5 : Int)), HOp.put 3, HOp.put 4, HOp.get]).1.size = 2 := by
  constructor
  · exact (heap_peek_extremal_size false
      [HOp.put ((5 : Int)), HOp.put 3, HOp.put 4, HOp.get]).1 4 (by decide) 5 (by decide)
  · exact ((heap_peek_extremal_size false
      [HOp.put ((5 : Int)), HOp.put 3, HOp.put 4, HOp.get]).2.2).trans (by decide)

/-! ## Claim C6: the priority queue stays sorted with FIFO ties -/

/-- Finite priorities are below the `+inf` sentinel. -/
theorem Pint_lt_Ppinf (n : Int) : Pint n < Ppinf :=
  WithBot.coe_lt_coe.mpr (WithTop.coe_lt_top n)

/-- Finite priorities are above the `-inf` sentinel. -/
theorem Pbot_lt_Pint (n : Int) : (⊥ : P) < Pint n :=
  WithBot.bot_lt_coe _

/-- `qle` is transitive. -/
theorem qle_trans {t : Bool} {a b c : P} (h1 : qle t a b) (h2 : qle t b c) :
    qle t a c := by
  cases t
  · exact le_trans h1 h2
  · exact le_trans h2 h1

/-- A failed `qle` comparison gives the strict converse ordering. -/
theorem not_qle {t : Bool} {a b : P} (h : ¬ qle t a b) : qle t b a ∧ a ≠ b := by
  cases t
  · exact ⟨le_of_lt (not_le.mp h), fun he => h (le_of_eq he)⟩
  · exact ⟨le_of_lt (not_le.mp h), fun he => h (le_of_eq he.symm)⟩

/-- The binary-search flag is the `qle` comparison against the probed
entry. -/
theorem pqFlag_iff (t : Bool) (pr p : P) : pqFlag t pr p = true ↔ qle t p pr := by
  cases t <;> simp [pqFlag, qle]

/-- The negative binary-search flag. -/
theorem pqFlag_false_iff (t : Bool) (pr p : P) :
    pqFlag t pr p = false ↔ ¬ qle t p pr := by
  cases t <;> simp [pqFlag, qle]

/-- One unfolding of the binary-search loop. -/
theorem searchPos_step {β : Type} [Inhabited β] (t : Bool) (items : List (P × β))
    (pr : P) (fuel left right : Nat) :
    searchPos t items pr (fuel + 1) left right =
      if right > left + 1 then
        if pqFlag t pr (items.getD ((left + right) / 2) ((⊥ : P), default)).1
        then searchPos t items pr fuel ((left + right) / 2) right
        else searchPos t items pr fuel left ((left + right) / 2)
      else right := rfl

/-- The binary search of `put` lands strictly after a flag-true entry and
at a flag-false entry, provided the two ends have these flags. -/
theorem searchPos_found {β : Type} [Inhabited β] (t : Bool)
    (items : List (P × β)) (pr : P) :
    ∀ (fuel left right : Nat), left + 1 ≤ right → right ≤ left + fuel →
      pqFlag t pr (items.getD left ((⊥ : P), default)).1 = true →
      pqFlag t pr (items.getD right ((⊥ : P), default)).1 = false →
      left + 1 ≤ searchPos t items pr fuel left right ∧
      searchPos t items pr fuel left right ≤ right ∧
      pqFlag t pr (items.getD (searchPos t items pr fuel left right - 1)
        ((⊥ : P), default)).1 = true ∧
      pqFlag t pr (items.getD (searchPos t items pr fuel left right)
        ((⊥ : P), default)).1 = false := by
  intro fuel
  induction fuel with
  | zero => intro left right h1 h2 _ _; omega
  | succ fuel ih =>
    intro left right h1 h2 hfl hfr
    rw [searchPos_step]
    by_cases hlr : right > left + 1
    · rw [if_pos hlr]
      by_cases hm : pqFlag t pr (items.getD ((left + right) / 2) ((⊥ : P), default)).1 = true
      · rw [if_pos hm]
        obtain ⟨c1, c2, c3, c4⟩ :=
          ih ((left + right) / 2) right (by omega) (by omega) hm hfr
        exact ⟨by omega, c2, c3, c4⟩
      · rw [if_neg hm]
        rw [Bool.not_eq_true] at hm
        obtain ⟨c1, c2, c3, c4⟩ :=
          ih left ((left + right) / 2) (by omega) (by omega) hfl hm
        exact ⟨c1, by omega, c3, c4⟩
    · rw [if_neg hlr]
      have hre : right - 1 = left := by omega
      rw [hre]
      exact ⟨by omega, le_refl right, hfl, hfr⟩

/-- Two positions of a pairwise list are related, read through `getD`. -/
theorem pairwise_getD {γ : Type} {R : γ → γ → Prop} (d : γ) (l : List γ)
    (hp : l.Pairwise R) (i j : Nat) (hij : i < j) (hj : j < l.length) :
    R (l.getD i d) (l.getD j d) := by
  rw [List.getD_eq_getElem l d (by omega), List.getD_eq_getElem l d hj]
  exact List.pairwise_iff_getElem.mp hp i j (by omega) hj hij

/-- Inserting an element `R`-above everything before the slot and `R`-below
everything from the slot on keeps a list pairwise. -/
theorem pairwise_insertIdx {γ : Type} {R : γ → γ → Prop} (d : γ) (l : List γ)
    (x : γ) (r : Nat) (hr : r ≤ l.length) (hp : l.Pairwise R)
    (hbefore : ∀ i, i < l.length → i < r → R (l.getD i d) x)
    (hafter : ∀ j, j < l.length → r ≤ j → R x (l.getD j d)) :
    (l.insertIdx r x).Pairwise R := by
  rw [List.pairwise_iff_getElem]
  intro i j hi hj hij
  have hp2 := List.pairwise_iff_getElem.mp hp
  have hlen : (l.insertIdx r x).length = l.length + 1 := List.length_insertIdx _ _ hr
  rw [hlen] at hi hj
  by_cases hjr : j < r
  · rw [List.getElem_insertIdx_of_lt l x r i (by omega) (by omega),
      List.getElem_insertIdx_of_lt l x r j (by omega) (by omega)]
    exact hp2 i j (by omega) (by omega) hij
  · by_cases hjeq : j = r
    · subst hjeq
      rw [List.getElem_insertIdx_of_lt l x j i (by omega) (by omega),
        List.getElem_insertIdx_self l x j (by omega)]
      have hb := hbefore i (by omega) (by omega)
      rw [List.getD_eq_getElem l d (by omega)] at hb
      exact hb
    · obtain ⟨k, hk⟩ : ∃ k, j = r + k + 1 := ⟨j - r - 1, by omega⟩
      subst hk
      rw [List.getElem_insertIdx_add_succ l x r k (by omega)]
      by_cases hir : i < r
      · rw [List.getElem_insertIdx_of_lt l x r i (by omega) (by omega)]
        exact hp2 i (r + k) (by omega) (by omega) (by omega)
      · by_cases hieq : i = r
        · subst hieq
          rw [List.getElem_insertIdx_self l x i (by omega)]
          have ha := hafter (i + k) (by omega) (by omega)
          rw [List.getD_eq_getElem l d (by omega)] at ha
          exact ha
        · obtain ⟨m, hm⟩ : ∃ m, i = r + m + 1 := ⟨i - r - 1, by omega⟩
          subst hm
          rw [List.getElem_insertIdx_add_succ l x r m (by omega)]
          exact hp2 (r + m) (r + k) (by omega) (by omega) (by omega)

/-- The back sentinel sits right after the `mid` entries. -/
theorem getD_bracket_last (mid : List (P × Nat)) (t : Bool) :
    ((pqLo t, 0) :: mid ++ [(pqHi t, 0)]).getD (mid.length + 1)
      ((⊥ : P), (default : Nat)) = (pqHi t, 0) := by
  show ((pqLo t, 0) :: (mid ++ [(pqHi t, 0)])).getD (mid.length + 1)
    ((⊥ : P), (default : Nat)) = (pqHi t, 0)
  rw [List.getD_eq_getElem?_getD, List.getElem?_cons_succ,
    List.getElem?_append_right (le_refl mid.length)]
  simp

/-- `PriorityQueue.put` preserves the run invariant, storing the current
counter as the new timestamp. -/
theorem pq_put_wf (t : Bool) (q : PriorityQueue Nat) (pr : Int) (ts : Nat)
    (hwf : PQWF t (q, ts)) : PQWF t (q.put pr ts, ts + 1) := by
  obtain ⟨hty, ⟨mid, hitems, hlenmid, hmem⟩, hpair⟩ := hwf
  replace hty : q.queue_type = t := hty
  replace hitems : q.items = (pqLo t, 0) :: mid ++ [(pqHi t, 0)] := hitems
  replace hlenmid : mid.length = q.size := hlenmid
  replace hmem : ∀ e ∈ mid, (∃ n : Int, e.1 = Pint n) ∧ e.2 < ts := hmem
  replace hpair : q.items.Pairwise (pqR t) := hpair
  have hlen : q.items.length = q.size + 2 := by
    rw [hitems]
    simp
    omega
  have hflag0 : pqFlag t (Pint pr) ((q.items.getD 0 ((⊥ : P), default)).1) = true := by
    rw [hitems]
    show pqFlag t (Pint pr) (pqLo t) = true
    rw [pqFlag_iff]
    cases t
    · exact bot_le
    · exact le_of_lt (Pint_lt_Ppinf pr)
  have hflagEnd : pqFlag t (Pint pr)
      ((q.items.getD (q.size + 1) ((⊥ : P), default)).1) = false := by
    rw [hitems, ← hlenmid, getD_bracket_last mid t]
    show pqFlag t (Pint pr) (pqHi t) = false
    rw [pqFlag_false_iff]
    cases t
    · exact not_le.mpr (Pint_lt_Ppinf pr)
    · exact not_le.mpr (Pbot_lt_Pint pr)
  have hput_items : (q.put pr ts).items = q.items.insertIdx
      (searchPos q.queue_type q.items (Pint pr) (q.size + 1) 0 (q.size + 1))
      (Pint pr, ts) := rfl
  have hput_size : (q.put pr ts).size = q.size + 1 := rfl
  rw [hty] at hput_items
  obtain ⟨hr1, hr2, hrt, hrf⟩ := searchPos_found t q.items (Pint pr)
    (q.size + 1) 0 (q.size + 1) (by omega) (by omega) hflag0 hflagEnd
  set r := searchPos t q.items (Pint pr) (q.size + 1) 0 (q.size + 1) with hrdef
  refine ⟨hty, ⟨mid.insertIdx (r - 1) (Pint pr, ts), ?_, ?_, ?_⟩, ?_⟩
  · show (q.put pr ts).items =
      (pqLo t, 0) :: mid.insertIdx (r - 1) (Pint pr, ts) ++ [(pqHi t, 0)]
    rw [hput_items, hitems]
    obtain ⟨k, hk⟩ : ∃ k, r = k + 1 := ⟨r - 1, by omega⟩
    rw [hk]
    have hstep : List.insertIdx (k + 1) (Pint pr, ts)
        ((pqLo t, 0) :: mid ++ [(pqHi t, 0)]) =
        (pqLo t, 0) :: List.insertIdx k (Pint pr, ts) (mid ++ [(pqHi t, 0)]) := rfl
    rw [hstep, insertIdx_append_of_le _ k mid _ (by omega)]
    rfl
  · show (mid.insertIdx (r - 1) (Pint pr, ts)).length = (q.put pr ts).size
    rw [hput_size, List.length_insertIdx _ _ ((by omega : r - 1 ≤ mid.length))]
    omega
  · intro e he
    rcases (List.mem_insertIdx (by omega)).mp he with he2 | he2
    · rw [he2]
      refine ⟨⟨pr, rfl⟩, ?_⟩
      show ts < ts + 1
      omega
    · obtain ⟨hfin, hts⟩ := hmem e he2
      refine ⟨hfin, ?_⟩
      show e.2 < ts + 1
      omega
  · show ((q.put pr ts).items).Pairwise (pqR t)
    rw [hput_items]
    have hqt : qle t ((q.items.getD (r - 1) ((⊥ : P), default)).1) (Pint pr) :=
      (pqFlag_iff t _ _).mp hrt
    have hqf : ¬ qle t ((q.items.getD r ((⊥ : P), default)).1) (Pint pr) :=
      (pqFlag_false_iff t _ _).mp hrf
    obtain ⟨hq2, hqne⟩ := not_qle hqf
    have hmemD : ∀ i, i < q.items.length →
        q.items.getD i ((⊥ : P), default) ∈ q.items := by
      intro i hi
      rw [List.getD_eq_getElem _ _ hi]
      exact List.getElem_mem hi
    apply pairwise_insertIdx ((⊥ : P), default) q.items (Pint pr, ts) r
      (by omega) hpair
    · intro i hi hir
      constructor
      · show qle t ((q.items.getD i ((⊥ : P), default)).1) (Pint pr)
        by_cases hieq : i = r - 1
        · rw [hieq]
          exact hqt
        · exact qle_trans
            (pairwise_getD ((⊥ : P), default) q.items hpair i (r - 1)
              (by omega) (by omega)).1 hqt
      · intro heq
        replace heq : (q.items.getD i ((⊥ : P), default)).1 = Pint pr := heq
        show (q.items.getD i ((⊥ : P), default)).2 < ts
        have hmemi := hmemD i hi
        rw [hitems] at hmemi heq ⊢
        rcases List.mem_cons.mp hmemi with hcase | hcase
        · exfalso
          have heqLo : pqLo t = Pint pr :=
            ((congrArg Prod.fst hcase).symm.trans heq)
          cases t
          · exact (Pbot_lt_Pint pr).ne heqLo
          · exact (Pint_lt_Ppinf pr).ne' heqLo
        · rcases List.mem_append.mp hcase with hcase2 | hcase2
          · exact (hmem _ hcase2).2
          · exfalso
            have heqHi : pqHi t = Pint pr :=
              ((congrArg Prod.fst (List.mem_singleton.mp hcase2)).symm.trans heq)
            cases t
            · exact (Pint_lt_Ppinf pr).ne' heqHi
            · exact (Pbot_lt_Pint pr).ne heqHi
    · intro j hj hjr
      constructor
      · show qle t (Pint pr) ((q.items.getD j ((⊥ : P), default)).1)
        by_cases hjeq : j = r
        · rw [hjeq]
          exact hq2
        · exact qle_trans hq2
            (pairwise_getD ((⊥ : P), default) q.items hpair r j
              (by omega) (by omega)).1
      · intro heq
        replace heq : Pint pr = (q.items.getD j ((⊥ : P), default)).1 := heq
        exfalso
        by_cases hjeq : j = r
        · rw [hjeq] at heq
          exact hqne heq.symm
        · apply hqf
          rw [heq]
          exact (pairwise_getD ((⊥ : P), default) q.items hpair r j
            (by omega) (by omega)).1

/-- One `get` step (or a no-op on an empty queue) preserves the run
invariant. -/
theorem pq_get_wf (t : Bool) (q : PriorityQueue Nat) (ts : Nat)
    (hwf : PQWF t (q, ts)) :
    PQWF t (match q.get with
      | none => (q, ts + 1)
      | some (_, q2) => (q2, ts + 1)) := by
  obtain ⟨hty, ⟨mid, hitems, hlenmid, hmem⟩, hpair⟩ := hwf
  replace hty : q.queue_type = t := hty
  replace hitems : q.items = (pqLo t, 0) :: mid ++ [(pqHi t, 0)] := hitems
  replace hlenmid : mid.length = q.size := hlenmid
  replace hmem : ∀ e ∈ mid, (∃ n : Int, e.1 = Pint n) ∧ e.2 < ts := hmem
  replace hpair : q.items.Pairwise (pqR t) := hpair
  cases hget : q.get with
  | none =>
    refine ⟨hty, ⟨mid, hitems, hlenmid, fun e he => ⟨(hmem e he).1, ?_⟩⟩, hpair⟩
    show e.2 < ts + 1
    have := (hmem e he).2
    omega
  | some pair =>
    obtain ⟨e0, q2⟩ := pair
    unfold PriorityQueue.get at hget
    split at hget
    · exact absurd hget (by simp)
    · rename_i hsz
      cases mid with
      | nil =>
        exfalso
        simp at hlenmid
        omega
      | cons e mid2 =>
        have h1q : q.items[1]? = some e := by
          rw [hitems]
          simp
        rw [h1q] at hget
        have hpair2 : (e, ({ q with items := q.items.eraseIdx 1, size := q.size - 1 } : PriorityQueue Nat)) = (e0, q2) :=
          Option.some.inj hget
        have hq2 : ({ q with items := q.items.eraseIdx 1, size := q.size - 1 } : PriorityQueue Nat) = q2 :=
          congrArg Prod.snd hpair2
        rw [← hq2]
        refine ⟨hty, ⟨mid2, ?_, ?_, ?_⟩, ?_⟩
        · show q.items.eraseIdx 1 = (pqLo t, 0) :: mid2 ++ [(pqHi t, 0)]
          rw [hitems]
          simp
        · show mid2.length = q.size - 1
          simp at hlenmid
          omega
        · intro e2 he2
          refine ⟨(hmem e2 (List.mem_cons_of_mem e he2)).1, ?_⟩
          show e2.2 < ts + 1
          have := (hmem e2 (List.mem_cons_of_mem e he2)).2
          omega
        · show (q.items.eraseIdx 1).Pairwise (pqR t)
          exact List.Pairwise.sublist (List.eraseIdx_sublist q.items 1) hpair

/-- The initial queue satisfies the run invariant. -/
theorem pq_init_wf (t : Bool) : PQWF t (PriorityQueue.init Nat t, 0) := by
  cases t
  · refine ⟨rfl, ⟨[], rfl, rfl, by simp⟩, ?_⟩
    show List.Pairwise (pqR false) [((⊥ : P), 0), (Ppinf, 0)]
    refine List.Pairwise.cons ?_ (List.pairwise_singleton _ _)
    intro b hb
    rw [List.mem_singleton.mp hb]
    exact ⟨bot_le, fun h => absurd h WithBot.bot_ne_coe⟩
  · refine ⟨rfl, ⟨[], rfl, rfl, by simp⟩, ?_⟩
    show List.Pairwise (pqR true) [(Ppinf, 0), ((⊥ : P), 0)]
    refine List.Pairwise.cons ?_ (List.pairwise_singleton _ _)
    intro b hb
    rw [List.mem_singleton.mp hb]
    exact ⟨bot_le, fun h => absurd h WithBot.coe_ne_bot⟩

/-- The run invariant holds along any queue operation sequence. -/
theorem pqRun_go (t : Bool) :
    ∀ (ops : List POp) (st : PriorityQueue Nat × Nat), PQWF t st →
      PQWF t (ops.foldl pqStep st) := by
  intro ops
  induction ops with
  | nil => intro st h; exact h
  | cons op rest ih =>
    intro st h
    rw [List.foldl_cons]
    cases op with
    | put pr => exact ih _ (pq_put_wf t st.1 pr st.2 h)
    | get => exact ih _ (pq_get_wf t st.1 st.2 h)

/-- Any queue run from the empty queue is well formed. -/
theorem pqRun_wf (t : Bool) (ops : List POp) : PQWF t (pqRun t ops) :=
  pqRun_go t ops (PriorityQueue.init Nat t, 0) (pq_init_wf t)

/-- Draining a bracket-shaped queue by repeated `get` returns exactly the
stored entries in their list order. -/
theorem pqDrain_eq (t : Bool) :
    ∀ (mid : List (P × Nat)) (q : PriorityQueue Nat),
      q.queue_type = t →
      q.items = (pqLo t, 0) :: mid ++ [(pqHi t, 0)] → mid.length = q.size →
      pqDrain q.size q = mid := by
  intro mid
  induction mid with
  | nil =>
    intro q hty hitems hlen
    rw [← hlen]
    rfl
  | cons e mid2 ih =>
    intro q hty hitems hlen
    have hlen2 : mid2.length + 1 = q.size := by simpa using hlen
    have h1q : q.items[1]? = some e := by
      rw [hitems]
      simp
    have hget : q.get = some (e, { q with items := q.items.eraseIdx 1, size := q.size - 1 }) := by
      unfold PriorityQueue.get
      rw [if_neg (by omega), h1q]
    obtain ⟨n2, hn2⟩ : ∃ n2, q.size = n2 + 1 := ⟨q.size - 1, by omega⟩
    rw [hn2]
    show (match q.get with
      | none => []
      | some (e2, q2) => e2 :: pqDrain n2 q2) = e :: mid2
    rw [hget]
    show e :: pqDrain n2 { q with items := q.items.eraseIdx 1, size := q.size - 1 } = e :: mid2
    have hdr : pqDrain n2 { q with items := q.items.eraseIdx 1, size := q.size - 1 } = mid2 := by
      have hn2b : n2 = mid2.length := by omega
      rw [hn2b]
      have hq2size : mid2.length = ({ q with items := q.items.eraseIdx 1, size := q.size - 1 } : PriorityQueue Nat).size := by
        show mid2.length = q.size - 1
        omega
      rw [hq2size]
      refine ih _ hty ?_ ?_
      · show q.items.eraseIdx 1 = (pqLo t, 0) :: mid2 ++ [(pqHi t, 0)]
        rw [hitems]
        simp
      · show mid2.length = q.size - 1
        omega
    rw [hdr]

/-- C6: after any interleaved sequence of `put`/`get` operations, repeatedly
calling `get` drains exactly the stored `(priority, timestamp)` entries, and
that pop order has non-decreasing priorities for a min-queue (non-increasing
for a max-queue) with strictly increasing timestamps among equal
priorities, i.e. equal-priority entries come out in insertion (FIFO)
order. -/
theorem pq_drain_sorted_fifo (t : Bool) (ops : List POp) :
    pqDrain (pqRun t ops).1.size (pqRun t ops).1 =
      (((pqRun t ops).1.items.drop 1).dropLast) ∧
    List.Pairwise (pqR t) (pqDrain (pqRun t ops).1.size (pqRun t ops).1) := by
  obtain ⟨hty, ⟨mid, hitems, hlen, hmem⟩, hpair⟩ := pqRun_wf t ops
  have hdrain : pqDrain (pqRun t ops).1.size (pqRun t ops).1 = mid :=
    pqDrain_eq t mid (pqRun t ops).1 hty hitems hlen
  constructor
  · rw [hdrain, hitems]
    show mid = (mid ++ [(pqHi t, 0)]).dropLast
    exact List.dropLast_concat.symm
  · rw [hdrain]
    have hsub : List.Sublist mid (pqRun t ops).1.items := by
      rw [hitems]
      exact List.Sublist.cons _ (List.sublist_append_left mid [(pqHi t, 0)])
    exact List.Pairwise.sublist hsub hpair

end GS
